import Mathlib

/-!
# Verification of the claude-code-action core logic

A shallow embedding, in Lean 4, of the mode-detection and GitHub-event
normalization engine of the `claude-code-action-ccr` repository:

* the content sanitizer (`sanitizeContent` and its seven stages),
* the time-boundary filter (`filterCommentsToTriggerTime`, data fetcher),
* the context normalizer (`parseGitHubContext`, `src/github/context.ts`),
* the mode detector (`detectMode` / `validateTrackProgressEvent`),
* the actor and permission gate (`checkHumanActor`,
  `checkWritePermissions`, `src/github/validation/permissions.ts`),
* agent mode's `shouldTrigger` (`src/modes/agent/index.ts`).

JavaScript regex-driven `String.replace(..., /g)` calls are embedded as
fuel-indexed scanners over `List Char`: at every position the scanner
either applies the regex's (deterministic, after resolving greediness and
backtracking by hand) match attempt or copies one character.  JavaScript
`Date` values are embedded as already-parsed integer millisecond
timestamps.  GitHub API calls are embedded as explicit result parameters.
-/

/-! ## JavaScript character classes -/

/-- JavaScript regex `\s` (whitespace class), by code point. -/
def jsWhitespace (c : Char) : Bool :=
  c.toNat = 32 || c.toNat = 9 || c.toNat = 10 || c.toNat = 0x0B || c.toNat = 0x0C ||
  c.toNat = 13 || c.toNat = 0xA0 || c.toNat = 0x1680 ||
  (0x2000 ≤ c.toNat && c.toNat ≤ 0x200A) || c.toNat = 0x2028 || c.toNat = 0x2029 ||
  c.toNat = 0x202F || c.toNat = 0x205F || c.toNat = 0x3000 || c.toNat = 0xFEFF

/-- JavaScript regex word character (`\w`, the class deciding `\b`). -/
def isWordChar (c : Char) : Bool :=
  ('A' ≤ c && c ≤ 'Z') || ('a' ≤ c && c ≤ 'z') || ('0' ≤ c && c ≤ '9') || c = '_'

/-- The class `[A-Za-z0-9]`. -/
def isAsciiAlphanum (c : Char) : Bool :=
  ('A' ≤ c && c ≤ 'Z') || ('a' ≤ c && c ≤ 'z') || ('0' ≤ c && c ≤ '9')

/-- ASCII model of JavaScript `toLowerCase` on a character. -/
def jsToLowerChar (c : Char) : Char :=
  if 'A' ≤ c && c ≤ 'Z' then Char.ofNat (c.toNat + 32) else c

/-- ASCII model of JavaScript `String.prototype.toLowerCase`. -/
def jsToLower (s : String) : String :=
  ⟨s.data.map jsToLowerChar⟩

/-! ## Generic scanner for global regex replacement

A `Matcher` receives the character just before the current position (for
word-boundary lookbehind; `none` at the start of the string) and the
remaining input.  On success it yields the replacement text to emit, the
new "previous character" (the last character of the matched region) and
the remaining input after the match.  `scanRepl` drives a matcher over the
whole string, mirroring `String.replace` with a `/g` regex: at each
position try the match; on failure copy one character and move on.  The
fuel argument makes the recursion structural; every concrete matcher
consumes at least one character per match, so fuel `l.length` suffices. -/

def Matcher : Type :=
  Option Char → List Char → Option (List Char × Option Char × List Char)

def scanRepl (m : Matcher) : Nat → Option Char → List Char → List Char
  | 0, _, l => l
  | _ + 1, _, [] => []
  | f + 1, prev, c :: cs =>
    match m prev (c :: cs) with
    | some (out, np, rest) => out ++ scanRepl m f np rest
    | none => c :: scanRepl m f (some c) cs

/-- Run a matcher-based global replacement over a string. -/
def runScan (m : Matcher) (s : String) : String :=
  ⟨scanRepl m s.data.length none s.data⟩

/-- The previous-character state after copying `l` verbatim. -/
def lastOr (prev : Option Char) (l : List Char) : Option Char :=
  match l.getLast? with
  | some c => some c
  | none => prev

theorem lastOr_cons (prev : Option Char) (c : Char) (cs : List Char) :
    lastOr prev (c :: cs) = lastOr (some c) cs := by
  cases cs with
  | nil => rfl
  | cons d ds => simp [lastOr, List.getLast?]

/-- If the matcher fails at every position of `l`, the scan is the
identity (for every fuel value, since exhausted fuel also copies). -/
theorem scanRepl_id (m : Matcher) (l : List Char)
    (h : ∀ prev c cs, (c :: cs) <:+ l → m prev (c :: cs) = none) :
    ∀ f prev, scanRepl m f prev l = l := by
  induction l with
  | nil => intro f prev; cases f <;> rfl
  | cons c cs ih =>
    intro f prev
    cases f with
    | zero => rfl
    | succ f =>
      have hm := h prev c cs List.suffix_rfl
      simp only [scanRepl, hm]
      rw [ih (fun p d ds hs => h p d ds (hs.trans (List.suffix_cons c cs)))]

/-- If the matcher fails at every position inside `pre`, the scan copies
`pre` and continues on `rest` with the correspondingly updated previous
character. -/
theorem scanRepl_copy (m : Matcher) (pre rest : List Char)
    (h : ∀ p prev, p ≠ [] → p <:+ pre → m prev (p ++ rest) = none) :
    ∀ f prev,
      scanRepl m (pre.length + f) prev (pre ++ rest) =
        pre ++ scanRepl m f (lastOr prev pre) rest := by
  induction pre with
  | nil => intro f prev; simp [lastOr]
  | cons c cs ih =>
    intro f prev
    have hm := h (c :: cs) prev (by simp) List.suffix_rfl
    have hlen : (c :: cs).length + f = (cs.length + f) + 1 := by
      simp [Nat.add_comm, Nat.add_assoc, Nat.add_left_comm]
    rw [hlen]
    simp only [List.cons_append] at hm
    have hstep : scanRepl m (cs.length + f + 1) prev (c :: (cs ++ rest)) =
        c :: scanRepl m (cs.length + f) (some c) (cs ++ rest) := by
      simp only [scanRepl, hm]
    simp only [List.cons_append]
    rw [hstep]
    rw [ih (fun p prev hp hs => h p prev hp (hs.trans (List.suffix_cons c cs))) f (some c)]
    rw [lastOr_cons]

/-- Stepping the scan through a successful match. -/
theorem scanRepl_match (m : Matcher) (f : Nat) (prev np : Option Char)
    (c : Char) (cs out rest : List Char)
    (h : m prev (c :: cs) = some (out, np, rest)) :
    scanRepl m (f + 1) prev (c :: cs) = out ++ scanRepl m f np rest := by
  simp [scanRepl, h]

/-- Consume exactly `n` characters satisfying `p`, returning the rest. -/
def takeCount (p : Char → Bool) : Nat → List Char → Option (List Char)
  | 0, l => some l
  | _ + 1, [] => none
  | n + 1, c :: cs => if p c then takeCount p n cs else none

/-! ## Content sanitizer (`sanitizeContent` and its stages)

Embeds the seven-stage sanitizer.  Each JS `replace` with a `/g` regex
becomes one `runScan` pass with a matcher that reproduces the regex's
behaviour at a single position (greediness and backtracking resolved by
hand; each resolution is noted where it is not immediate). -/

/-- Skip to just after the first `-->` (lazy `[\s\S]*?-->`). -/
def dropThroughClose : List Char → Option (List Char)
  | '-' :: '-' :: '>' :: t => some t
  | _ :: t => dropThroughClose t
  | [] => none

/-- Matcher for `/<!--[\s\S]*?-->/g` (replaced by the empty string). -/
def htmlCommentM : Matcher := fun _ l =>
  match l with
  | '<' :: '!' :: '-' :: '-' :: rest =>
    match dropThroughClose rest with
    | some rest' => some ([], some '>', rest')
    | none => none
  | _ => none

/-- `stripHtmlComments` from the sanitizer source. -/
def stripHtmlComments (s : String) : String := runScan htmlCommentM s

/-- `[​‌‍﻿]` (zero-width characters). -/
def isZeroWidthChar (c : Char) : Bool :=
  c.toNat = 0x200B || c.toNat = 0x200C || c.toNat = 0x200D || c.toNat = 0xFEFF

/-- `[\u0000-\u0008\u000B\u000C\u000E-\u001F\u007F-\u009F]` (C0/C1 controls). -/
def isControlRangeChar (c : Char) : Bool :=
  c.toNat ≤ 0x08 || c.toNat = 0x0B || c.toNat = 0x0C ||
  (0x0E ≤ c.toNat && c.toNat ≤ 0x1F) || (0x7F ≤ c.toNat && c.toNat ≤ 0x9F)

/-- `­` (soft hyphen). -/
def isSoftHyphenChar (c : Char) : Bool := c.toNat = 0xAD

/-- `[‪-‮⁦-⁩]` (bidirectional overrides). -/
def isBidiChar (c : Char) : Bool :=
  (0x202A ≤ c.toNat && c.toNat ≤ 0x202E) || (0x2066 ≤ c.toNat && c.toNat ≤ 0x2069)

/-- `stripInvisibleCharacters`: four global character-class deletions,
applied in the source's order; each is a list filter. -/
def stripInvisibleCharacters (s : String) : String :=
  let l1 := s.data.filter (fun c => !isZeroWidthChar c)
  let l2 := l1.filter (fun c => !isControlRangeChar c)
  let l3 := l2.filter (fun c => !isSoftHyphenChar c)
  ⟨l3.filter (fun c => !isBidiChar c)⟩

/-- Matcher for `/!\[[^\]]*\]\(/g` replaced by `![](`.  `[^\]]*` is
greedy but bounded by the first `]`, so the match is deterministic. -/
def imageAltM : Matcher := fun _ l =>
  match l with
  | '!' :: '[' :: rest =>
    match rest.dropWhile (fun c => c ≠ ']') with
    | ']' :: '(' :: rest' => some (['!', '[', ']', '('], some '(', rest')
    | _ => none
  | _ => none

/-- `stripMarkdownImageAltText` from the sanitizer source. -/
def stripMarkdownImageAltText (s : String) : String := runScan imageAltM s

/-- After the candidate `[^)]+` group, match `\s+` then a `q`-quoted
title.  `\s+` is effectively maximal: backtracking it would place a
whitespace character where the quote is required. -/
def linkTitleTail (q : Char) (r : List Char) : Option (List Char) :=
  let ws := r.takeWhile jsWhitespace
  if ws.isEmpty then none
  else
    match r.drop ws.length with
    | c :: r2 =>
      if c = q then
        let content := r2.takeWhile (fun d => d ≠ q)
        match r2.drop content.length with
        | c2 :: r3 => if c2 = q then some r3 else none
        | [] => none
      else none
    | [] => none

/-- Greedy-with-backtracking choice of the `[^)]+` group length: try the
longest candidate first, shrinking until the quoted title parses. -/
def linkTitleLens (q : Char) (r3 : List Char) : Nat → Option (Nat × List Char)
  | 0 => none
  | n + 1 =>
    match linkTitleTail q (r3.drop (n + 1)) with
    | some rest => some (n + 1, rest)
    | none => linkTitleLens q r3 n

/-- Matcher for `/(\[[^\]]*\]\([^)]+)\s+"[^"]*"/g` (and its single-quote
twin), replaced by `$1`: the emitted text keeps the link head and the
chosen `[^)]+` group, dropping the whitespace and quoted title. -/
def linkTitleM (q : Char) : Matcher := fun _ l =>
  match l with
  | '[' :: r1 =>
    let a := r1.takeWhile (fun c => c ≠ ']')
    match r1.drop a.length with
    | ']' :: '(' :: r3 =>
      let w := r3.takeWhile (fun c => c ≠ ')')
      match linkTitleLens q r3 w.length with
      | some (len, rest) => some ('[' :: a ++ ']' :: '(' :: r3.take len, some q, rest)
      | none => none
    | _ => none
  | _ => none

/-- `stripMarkdownLinkTitles`: double-quoted pass, then single-quoted. -/
def stripMarkdownLinkTitles (s : String) : String :=
  runScan (linkTitleM '\'') (runScan (linkTitleM '"') s)

/-- Case-insensitive literal match (the attribute regexes carry the `i`
flag); `lit` is given lowercase.  Returns the input after the literal. -/
def dropLitCI : List Char → List Char → Option (List Char)
  | [], l => some l
  | _ :: _, [] => none
  | a :: as, c :: cs => if jsToLowerChar c = a then dropLitCI as cs else none

/-- `\s*=\s*["'][^"']*["']` — the quoted-value tail of the attribute
regexes.  Yields the character ending the match and the rest. -/
def attrEqQuoted (r2 : List Char) : Option (Option Char × List Char) :=
  match r2.dropWhile jsWhitespace with
  | '=' :: r4 =>
    match r4.dropWhile jsWhitespace with
    | q :: r6 =>
      if q = '"' || q = '\'' then
        let content := r6.takeWhile (fun d => !(d = '"' || d = '\''))
        match r6.drop content.length with
        | q2 :: r7 => if q2 = '"' || q2 = '\'' then some (some q2, r7) else none
        | [] => none
      else none
    | [] => none
  | _ => none

/-- `\s*=\s*[^\s>]+` — the unquoted-value tail of the attribute
regexes. -/
def attrEqUnquoted (r2 : List Char) : Option (Option Char × List Char) :=
  match r2.dropWhile jsWhitespace with
  | '=' :: r4 =>
    let r5 := r4.dropWhile jsWhitespace
    let run := r5.takeWhile (fun d => !(jsWhitespace d || d = '>'))
    if run.isEmpty then none else some (run.getLast?, r5.drop run.length)
  | _ => none

/-- Matcher for `/\s<name>\s*=\s*<value-tail>/gi`, replaced by the empty
string; `valueTail` is `attrEqQuoted` or `attrEqUnquoted`. -/
def attrM (name : List Char) (valueTail : List Char → Option (Option Char × List Char)) :
    Matcher := fun _ l =>
  match l with
  | c :: r1 =>
    if jsWhitespace c then
      match dropLitCI name r1 with
      | some r2 =>
        match valueTail r2 with
        | some (np, rest) => some ([], np, rest)
        | none => none
      | none => none
    else none
  | [] => none

/-- Matcher for `/\sdata-[a-zA-Z0-9-]+\s*=\s*<value-tail>/gi`.  The name
run is greedy; shrinking it cannot help since the surrendered character
is neither whitespace nor `=`. -/
def dataAttrM (valueTail : List Char → Option (Option Char × List Char)) :
    Matcher := fun _ l =>
  match l with
  | c :: r1 =>
    if jsWhitespace c then
      match dropLitCI ['d', 'a', 't', 'a', '-'] r1 with
      | some r2 =>
        let nm := r2.takeWhile (fun d => isAsciiAlphanum d || d = '-')
        if nm.isEmpty then none
        else
          match valueTail (r2.drop nm.length) with
          | some (np, rest) => some ([], np, rest)
          | none => none
      | none => none
    else none
  | [] => none

/-- `stripHiddenAttributes`: the source's ten `replace` calls in order
(quoted then unquoted, for `alt`, `title`, `aria-label`, `data-*`,
`placeholder`). -/
def stripHiddenAttributes (s : String) : String :=
  let s1 := runScan (attrM ['a', 'l', 't'] attrEqQuoted) s
  let s2 := runScan (attrM ['a', 'l', 't'] attrEqUnquoted) s1
  let s3 := runScan (attrM ['t', 'i', 't', 'l', 'e'] attrEqQuoted) s2
  let s4 := runScan (attrM ['t', 'i', 't', 'l', 'e'] attrEqUnquoted) s3
  let s5 := runScan (attrM ['a', 'r', 'i', 'a', '-', 'l', 'a', 'b', 'e', 'l'] attrEqQuoted) s4
  let s6 := runScan (attrM ['a', 'r', 'i', 'a', '-', 'l', 'a', 'b', 'e', 'l'] attrEqUnquoted) s5
  let s7 := runScan (dataAttrM attrEqQuoted) s6
  let s8 := runScan (dataAttrM attrEqUnquoted) s7
  let s9 := runScan (attrM ['p', 'l', 'a', 'c', 'e', 'h', 'o', 'l', 'd', 'e', 'r'] attrEqQuoted) s8
  runScan (attrM ['p', 'l', 'a', 'c', 'e', 'h', 'o', 'l', 'd', 'e', 'r'] attrEqUnquoted) s9

def digitsToNat (ds : List Char) : Nat :=
  ds.foldl (fun a c => a * 10 + (c.toNat - 48)) 0

def isHexDigitChar (c : Char) : Bool :=
  c.isDigit || ('a' ≤ c && c ≤ 'f') || ('A' ≤ c && c ≤ 'F')

def hexDigitVal (c : Char) : Nat :=
  if c.isDigit then c.toNat - 48
  else if 'a' ≤ c && c ≤ 'f' then c.toNat - 87
  else c.toNat - 55

def hexToNat (ds : List Char) : Nat :=
  ds.foldl (fun a c => a * 16 + hexDigitVal c) 0

/-- Matcher for `/&#(\d+);/g` with the source's callback: decode to the
character when the value is printable ASCII (32–126), else drop. -/
def decEntityM : Matcher := fun _ l =>
  match l with
  | '&' :: '#' :: rest =>
    let ds := rest.takeWhile Char.isDigit
    if ds.isEmpty then none
    else
      match rest.drop ds.length with
      | ';' :: r' =>
        let n := digitsToNat ds
        some (if 32 ≤ n && n ≤ 126 then [Char.ofNat n] else [], some ';', r')
      | _ => none
  | _ => none

/-- Matcher for `/&#x([0-9a-fA-F]+);/g` (lowercase `x` only) with the
same printable-ASCII guard. -/
def hexEntityM : Matcher := fun _ l =>
  match l with
  | '&' :: '#' :: 'x' :: rest =>
    let ds := rest.takeWhile isHexDigitChar
    if ds.isEmpty then none
    else
      match rest.drop ds.length with
      | ';' :: r' =>
        let n := hexToNat ds
        some (if 32 ≤ n && n ≤ 126 then [Char.ofNat n] else [], some ';', r')
      | _ => none
  | _ => none

/-- `normalizeHtmlEntities`: decimal pass then hex pass. -/
def normalizeHtmlEntities (s : String) : String :=
  runScan hexEntityM (runScan decEntityM s)

/-- The literal replacement text for recognized tokens. -/
def redactedMarker : List Char := "[REDACTED_GITHUB_TOKEN]".data

/-- `\b` against the preceding character (the scanned positions always
start at a word character when the literal matches). -/
def boundaryBefore (prev : Option Char) : Bool :=
  match prev with
  | none => true
  | some c => !isWordChar c

/-- `\b` against the following input. -/
def boundaryAfter (l : List Char) : Bool :=
  match l with
  | [] => true
  | c :: _ => !isWordChar c

/-- Matcher for `/\b<lit>[A-Za-z0-9]{36}\b/g` where `lit` is one of
`ghp_`, `gho_`, `ghs_`, `ghr_`, replaced by the redaction marker. -/
def classicTokM (lit : List Char) : Matcher := fun prev l =>
  if boundaryBefore prev then
    if lit.isPrefixOf l then
      match takeCount isAsciiAlphanum 36 (l.drop lit.length) with
      | some rest =>
        if boundaryAfter rest then
          some (redactedMarker, (l.take (lit.length + 36)).getLast?, rest)
        else none
      | none => none
    else none
  else none

/-- Matcher for `/\bgithub_pat_[A-Za-z0-9_]{11,221}\b/g`.  The class
equals the word class, so with the trailing `\b` the greedy bounded
repetition matches exactly the maximal word run when its length lies in
`[11, 221]` and fails otherwise. -/
def patTokM : Matcher := fun prev l =>
  if boundaryBefore prev then
    if "github_pat_".data.isPrefixOf l then
      let r := l.drop 11
      let run := r.takeWhile isWordChar
      if 11 ≤ run.length && run.length ≤ 221 then
        some (redactedMarker, run.getLast?, r.drop run.length)
      else none
    else none
  else none

/-- `redactGitHubTokens`: the source's five `replace` calls in order. -/
def redactGitHubTokens (s : String) : String :=
  let s1 := runScan (classicTokM "ghp_".data) s
  let s2 := runScan (classicTokM "gho_".data) s1
  let s3 := runScan (classicTokM "ghs_".data) s2
  let s4 := runScan (classicTokM "ghr_".data) s3
  runScan patTokM s4

/-- `sanitizeContent`: the seven stages in the source's order. -/
def sanitizeContent (s : String) : String :=
  redactGitHubTokens
    (normalizeHtmlEntities
      (stripHiddenAttributes
        (stripMarkdownLinkTitles
          (stripMarkdownImageAltText
            (stripInvisibleCharacters
              (stripHtmlComments s))))))

/-! ## Time-boundary filter (`filterCommentsToTriggerTime`)

From the data fetcher.  Timestamps are embedded as already-parsed
integer milliseconds (`new Date(x).getTime()`); absent optional fields
are `none`.  `comment.lastEditedAt || comment.updatedAt` becomes the
first `some` of the two. -/

structure CommentT where
  createdAt : Int
  updatedAt : Option Int
  lastEditedAt : Option Int
  deriving DecidableEq, Repr

/-- `filterCommentsToTriggerTime(comments, triggerTime)`. -/
def filterCommentsToTriggerTime (comments : List CommentT) (triggerTime : Option Int) :
    List CommentT :=
  match triggerTime with
  | none => comments
  | some triggerTimestamp =>
    comments.filter fun comment =>
      if comment.createdAt ≥ triggerTimestamp then false
      else
        match (match comment.lastEditedAt with
               | some e => some e
               | none => comment.updatedAt) with
        | some lastEditTimestamp =>
          if lastEditTimestamp ≥ triggerTimestamp then false else true
        | none => true

/-- The spec's keep-predicate, stated in the spec's own words: creation
strictly earlier than the trigger, and the effective last-modification
time (`lastEditedAt` if present, else `updatedAt` if present) strictly
earlier than the trigger or absent. -/
def specKeepComment (triggerTime : Int) (c : CommentT) : Bool :=
  decide (c.createdAt < triggerTime) &&
    (match (match c.lastEditedAt with
            | some e => some e
            | none => c.updatedAt) with
     | some e => decide (e < triggerTime)
     | none => true)

/-! ## Context normalizer (`parseGitHubContext`, `src/github/context.ts`) -/

/-- `CLAUDE_APP_BOT_ID` from `src/github/constants.ts`. -/
def CLAUDE_APP_BOT_ID : Nat := 41898282

/-- `CLAUDE_BOT_LOGIN` from `src/github/constants.ts`. -/
def CLAUDE_BOT_LOGIN : String := "claude[bot]"

/-- The nine supported event names (`ENTITY_EVENT_NAMES` together with
`AUTOMATION_EVENT_NAMES`). -/
inductive EventName where
  | issues
  | issue_comment
  | pull_request
  | pull_request_review
  | pull_request_review_comment
  | workflow_dispatch
  | repository_dispatch
  | schedule
  | workflow_run
  deriving DecidableEq, Repr

/-- The string an `EventName` renders as in messages. -/
def EventName.toStr : EventName → String
  | .issues => "issues"
  | .issue_comment => "issue_comment"
  | .pull_request => "pull_request"
  | .pull_request_review => "pull_request_review"
  | .pull_request_review_comment => "pull_request_review_comment"
  | .workflow_dispatch => "workflow_dispatch"
  | .repository_dispatch => "repository_dispatch"
  | .schedule => "schedule"
  | .workflow_run => "workflow_run"

/-- The `inputs` record of `BaseContext`. -/
structure ContextInputs where
  prompt : String
  triggerPhrase : String
  assigneeTrigger : String
  labelTrigger : String
  baseBranch : Option String
  branchPrefix : String
  useStickyComment : Bool
  useCommitSigning : Bool
  botId : String
  botName : String
  allowedBots : String
  allowedNonWriteUsers : String
  trackProgress : Bool
  deriving DecidableEq, Repr

structure RepoRef where
  owner : String
  repo : String
  full_name : String
  deriving DecidableEq, Repr

/-- The parts of the raw webhook payload that `parseGitHubContext`
reads: the acting `issue` or `pull_request` object.  `issueHasPr`
embeds the presence of `issue.pull_request`. -/
structure IssuePayload where
  number : Nat
  issueHasPr : Bool
  deriving DecidableEq, Repr

structure PrPayload where
  number : Nat
  deriving DecidableEq, Repr

structure RawPayload where
  action : Option String
  issue : Option IssuePayload
  pull_request : Option PrPayload
  deriving DecidableEq, Repr

/-- The normalized context (`ParsedGitHubContext` / `AutomationContext`).
Entity-only fields are `none` on automation contexts; the source
discriminates the variants by `eventName` alone (`isEntityContext`). -/
structure GitHubContext where
  runId : Option String
  eventName : EventName
  eventAction : Option String
  repository : RepoRef
  actor : String
  inputs : ContextInputs
  payload : RawPayload
  entityNumber : Option Nat
  isPR : Option Bool
  deriving DecidableEq, Repr

/-- `ENTITY_EVENT_NAMES.includes(eventName)` (`isEntityContext`). -/
def isEntityContext (ctx : GitHubContext) : Bool :=
  ctx.eventName ∈ [EventName.issues, .issue_comment, .pull_request,
    .pull_request_review, .pull_request_review_comment]

/-- `AUTOMATION_EVENT_NAMES.includes(eventName)` (`isAutomationContext`). -/
def isAutomationContext (ctx : GitHubContext) : Bool :=
  ctx.eventName ∈ [EventName.workflow_dispatch, .repository_dispatch,
    .schedule, .workflow_run]

/-- Environment variables read when building the `inputs` record
(absent variable = `none`). -/
structure EnvVars where
  GITHUB_RUN_ID : Option String
  PROMPT : Option String
  TRIGGER_PHRASE : Option String
  ASSIGNEE_TRIGGER : Option String
  LABEL_TRIGGER : Option String
  BASE_BRANCH : Option String
  BRANCH_PREFIX : Option String
  USE_STICKY_COMMENT : Option String
  USE_COMMIT_SIGNING : Option String
  BOT_ID : Option String
  BOT_NAME : Option String
  ALLOWED_BOTS : Option String
  ALLOWED_NON_WRITE_USERS : Option String
  TRACK_PROGRESS : Option String
  deriving DecidableEq, Repr

/-- JavaScript `a || ""` on an optional string (`process.env.PROMPT`). -/
def orEmpty (o : Option String) : String :=
  match o with
  | some s => s
  | none => ""

/-- The `inputs` object built by `parseGitHubContext` (`??` is `getD`;
`=== "true"` is string equality with `"true"`). -/
def buildInputs (env : EnvVars) : ContextInputs where
  prompt := orEmpty env.PROMPT
  triggerPhrase := env.TRIGGER_PHRASE.getD "@claude"
  assigneeTrigger := env.ASSIGNEE_TRIGGER.getD ""
  labelTrigger := env.LABEL_TRIGGER.getD ""
  baseBranch := env.BASE_BRANCH
  branchPrefix := env.BRANCH_PREFIX.getD "claude/"
  useStickyComment := env.USE_STICKY_COMMENT = some "true"
  useCommitSigning := env.USE_COMMIT_SIGNING = some "true"
  botId := env.BOT_ID.getD (toString CLAUDE_APP_BOT_ID)
  botName := env.BOT_NAME.getD CLAUDE_BOT_LOGIN
  allowedBots := env.ALLOWED_BOTS.getD ""
  allowedNonWriteUsers := env.ALLOWED_NON_WRITE_USERS.getD ""
  trackProgress := env.TRACK_PROGRESS = some "true"

/-- The raw `github.context` fields `parseGitHubContext` reads. -/
structure ActionsContext where
  eventName : String
  payload : RawPayload
  repoOwner : String
  repoRepo : String
  actor : String
  deriving DecidableEq, Repr

/-- The `commonFields` object (shared by every branch of the switch). -/
def commonContext (env : EnvVars) (g : ActionsContext) (name : EventName)
    (entityNumber : Option Nat) (isPR : Option Bool) : GitHubContext where
  runId := env.GITHUB_RUN_ID
  eventName := name
  eventAction := g.payload.action
  repository :=
    { owner := g.repoOwner, repo := g.repoRepo
      full_name := g.repoOwner ++ "/" ++ g.repoRepo }
  actor := g.actor
  inputs := buildInputs env
  payload := g.payload
  entityNumber := entityNumber
  isPR := isPR

/-- `parseGitHubContext`.  The unchecked property reads
(`payload.issue.number`, `payload.pull_request.number`) surface as a
thrown `TypeError` when the object is absent, matching the JS runtime
behaviour of the `as`-cast. -/
def parseGitHubContext (env : EnvVars) (g : ActionsContext) :
    Except String GitHubContext :=
  match g.eventName with
  | "issues" =>
    match g.payload.issue with
    | some issue => .ok (commonContext env g .issues (some issue.number) (some false))
    | none => .error "TypeError: Cannot read properties of undefined (reading 'number')"
  | "issue_comment" =>
    match g.payload.issue with
    | some issue =>
      .ok (commonContext env g .issue_comment (some issue.number) (some issue.issueHasPr))
    | none => .error "TypeError: Cannot read properties of undefined (reading 'number')"
  | "pull_request" =>
    match g.payload.pull_request with
    | some pr => .ok (commonContext env g .pull_request (some pr.number) (some true))
    | none => .error "TypeError: Cannot read properties of undefined (reading 'number')"
  | "pull_request_target" =>
    match g.payload.pull_request with
    | some pr => .ok (commonContext env g .pull_request (some pr.number) (some true))
    | none => .error "TypeError: Cannot read properties of undefined (reading 'number')"
  | "pull_request_review" =>
    match g.payload.pull_request with
    | some pr => .ok (commonContext env g .pull_request_review (some pr.number) (some true))
    | none => .error "TypeError: Cannot read properties of undefined (reading 'number')"
  | "pull_request_review_comment" =>
    match g.payload.pull_request with
    | some pr =>
      .ok (commonContext env g .pull_request_review_comment (some pr.number) (some true))
    | none => .error "TypeError: Cannot read properties of undefined (reading 'number')"
  | "workflow_dispatch" => .ok (commonContext env g .workflow_dispatch none none)
  | "repository_dispatch" => .ok (commonContext env g .repository_dispatch none none)
  | "schedule" => .ok (commonContext env g .schedule none none)
  | "workflow_run" => .ok (commonContext env g .workflow_run none none)
  | other => .error ("Unsupported event type: " ++ other)

/-! ## Mode detector (`detectMode`, `src/modes/detector.ts`)

`checkContainsTrigger` lives in a module not present in the snapshot;
`detectMode` only consumes its boolean result, so it is passed as an
explicit function parameter. -/

inductive AutoDetectedMode where
  | tag
  | agent
  deriving DecidableEq, Repr

/-- JavaScript truthiness of a string (`if (context.inputs.prompt)`). -/
def jsTruthyStr (s : String) : Bool := s ≠ ""

/-- JavaScript truthiness of an optional string
(`if (context.eventAction)` where the field may be `undefined`). -/
def jsTruthyOptStr (o : Option String) : Bool :=
  match o with
  | some s => s ≠ ""
  | none => false

def trackProgressValidEvents : List EventName :=
  [.pull_request, .issues, .issue_comment, .pull_request_review_comment,
   .pull_request_review]

def trackProgressValidActions : List String :=
  ["opened", "synchronize", "ready_for_review", "reopened"]

/-- `validateTrackProgressEvent` (called only when `trackProgress` is
set).  Thrown errors are `Except.error` with the source's message. -/
def validateTrackProgressEvent (ctx : GitHubContext) : Except String Unit :=
  if ctx.eventName ∉ trackProgressValidEvents then
    .error ("track_progress is only supported for events: pull_request, issues, issue_comment, pull_request_review_comment, pull_request_review. Current event: "
      ++ ctx.eventName.toStr)
  else if ctx.eventName = .pull_request ∧ jsTruthyOptStr ctx.eventAction then
    if (ctx.eventAction.getD "") ∉ trackProgressValidActions then
      .error ("track_progress for pull_request events is only supported for actions: opened, synchronize, ready_for_review, reopened. Current action: "
        ++ ctx.eventAction.getD "")
    else .ok ()
  else .ok ()

/-- `eventName === "issue_comment" || ... review_comment || ... review`. -/
def isCommentEventName (e : EventName) : Bool :=
  e = .issue_comment ∨ e = .pull_request_review_comment ∨ e = .pull_request_review

/-- The fall-through body of `detectMode` after validation: each early
`return` becomes one guard of a nested conditional. -/
def detectModeCore (checkContainsTrigger : GitHubContext → Bool)
    (ctx : GitHubContext) : AutoDetectedMode :=
  if ctx.inputs.trackProgress ∧ isEntityContext ctx ∧
      (ctx.eventName = .pull_request ∨ ctx.eventName = .issues ∨
       ctx.eventName = .issue_comment ∨ ctx.eventName = .pull_request_review_comment ∨
       ctx.eventName = .pull_request_review) then
    .tag
  else if isEntityContext ctx ∧ isCommentEventName ctx.eventName ∧
      jsTruthyStr ctx.inputs.prompt then
    .agent
  else if isEntityContext ctx ∧ isCommentEventName ctx.eventName ∧
      checkContainsTrigger ctx then
    .tag
  else if isEntityContext ctx ∧ ctx.eventName = .issues ∧
      jsTruthyStr ctx.inputs.prompt then
    .agent
  else if isEntityContext ctx ∧ ctx.eventName = .issues ∧
      checkContainsTrigger ctx then
    .tag
  else if isEntityContext ctx ∧ ctx.eventName = .pull_request ∧
      jsTruthyOptStr ctx.eventAction ∧
      (ctx.eventAction.getD "") ∈ trackProgressValidActions ∧
      jsTruthyStr ctx.inputs.prompt then
    .agent
  else
    .agent

/-- `detectMode(context)`. -/
def detectMode (checkContainsTrigger : GitHubContext → Bool)
    (ctx : GitHubContext) : Except String AutoDetectedMode :=
  if ctx.inputs.trackProgress then
    match validateTrackProgressEvent ctx with
    | .error e => .error e
    | .ok _ => .ok (detectModeCore checkContainsTrigger ctx)
  else .ok (detectModeCore checkContainsTrigger ctx)

/-! ## Agent mode trigger (`agentMode.shouldTrigger`) -/

/-- `shouldTrigger(context) { return !!context.inputs?.prompt; }`. -/
def agentShouldTrigger (ctx : GitHubContext) : Bool :=
  jsTruthyStr ctx.inputs.prompt

/-! ## Actor gate (`checkHumanActor`)

The GitHub user-type lookup is embedded as the `actorType` argument. -/

/-- JavaScript `String.prototype.trim` (whitespace at both ends). -/
def jsTrim (s : String) : String :=
  ⟨((s.data.dropWhile jsWhitespace).reverse.dropWhile jsWhitespace).reverse⟩

/-- `split(",")` on the character list. -/
def splitCommaAux : List Char → List Char → List (List Char)
  | [], acc => [acc.reverse]
  | ',' :: t, acc => acc.reverse :: splitCommaAux t []
  | c :: t, acc => splitCommaAux t (c :: acc)

/-- JavaScript `String.prototype.split(",")`. -/
def jsSplitComma (s : String) : List String :=
  (splitCommaAux s.data []).map (⟨·⟩)

/-- JavaScript `String.prototype.endsWith`. -/
def jsEndsWith (s suffixLit : String) : Bool :=
  suffixLit.data.isSuffixOf s.data

/-- `.replace(/\[bot\]$/, "")`: strip one trailing `[bot]`. -/
def stripBotSuffix (s : String) : String :=
  if jsEndsWith s "[bot]" then ⟨s.data.take (s.data.length - 5)⟩ else s

/-- The normalized allow-list: split on commas, trim, lower-case, strip
the trailing bot marker, drop empties. -/
def normalizedAllowedBots (allowedBots : String) : List String :=
  ((jsSplitComma allowedBots).map (fun bot => stripBotSuffix (jsToLower (jsTrim bot)))).filter
    (fun bot => bot.length > 0)

/-- `checkHumanActor(octokit, githubContext)`; `actorType` is the
`userData.type` returned by the API. -/
def checkHumanActor (actorType : String) (actor : String) (allowedBots : String) :
    Except String Unit :=
  if actorType ≠ "User" then
    if jsTrim allowedBots = "*" then .ok ()
    else
      let botName := stripBotSuffix (jsToLower actor)
      if botName ∈ normalizedAllowedBots allowedBots then .ok ()
      else
        .error ("Workflow initiated by non-human actor: " ++ botName ++ " (type: "
          ++ actorType ++ "). Add bot to allowed_bots list or use '*' to allow all bots.")
  else .ok ()

/-! ## Permission gate (`checkWritePermissions`)

The collaborator-permission API call is embedded as the `permApi`
argument: `.error` is a failed request (the `catch` branch rethrows it
wrapped), `.ok level` the returned permission string. -/

/-- JavaScript truthiness of the optional `allowedNonWriteUsers`. -/
def jsTruthyOptArg (o : Option String) : Bool :=
  match o with
  | some s => s ≠ ""
  | none => false

/-- The bypass list: `allowedUsers.split(",").map(trim).filter(nonempty)`. -/
def allowedUserList (allowedUsers : String) : List String :=
  ((jsSplitComma allowedUsers).map jsTrim).filter (fun u => u.length > 0)

/-- The tail of `checkWritePermissions` after the bypass block: the
`[bot]` fast path, then the permission query. -/
def checkWritePermissionsRest (actor : String) (permApi : Except String String) :
    Except String Bool :=
  if jsEndsWith actor "[bot]" then .ok true
  else
    match permApi with
    | .error err => .error ("Failed to check permissions for " ++ actor ++ ": " ++ err)
    | .ok permissionLevel =>
      if permissionLevel = "admin" ∨ permissionLevel = "write" then .ok true
      else .ok false

/-- `checkWritePermissions(octokit, context, allowedNonWriteUsers,
githubTokenProvided)`; only `context.actor` is consumed besides the
embedded API result. -/
def checkWritePermissions (actor : String) (allowedNonWriteUsers : Option String)
    (githubTokenProvided : Option Bool) (permApi : Except String String) :
    Except String Bool :=
  if jsTruthyOptArg allowedNonWriteUsers ∧ githubTokenProvided = some true then
    let allowedUsers := jsTrim (allowedNonWriteUsers.getD "")
    if allowedUsers = "*" then .ok true
    else if allowedUsers ≠ "" then
      if actor ∈ allowedUserList allowedUsers then .ok true
      else checkWritePermissionsRest actor permApi
    else checkWritePermissionsRest actor permApi
  else checkWritePermissionsRest actor permApi

/-! ## Concrete contexts for closed instances -/

def baseTestInputs : ContextInputs where
  prompt := ""
  triggerPhrase := "@claude"
  assigneeTrigger := ""
  labelTrigger := ""
  baseBranch := none
  branchPrefix := "claude/"
  useStickyComment := false
  useCommitSigning := false
  botId := "41898282"
  botName := "claude[bot]"
  allowedBots := ""
  allowedNonWriteUsers := ""
  trackProgress := false

def mkCtx (e : EventName) (a : Option String) (tp : Bool) (p : String) : GitHubContext where
  runId := some "1"
  eventName := e
  eventAction := a
  repository := ⟨"o", "r", "o/r"⟩
  actor := "alice"
  inputs := { baseTestInputs with trackProgress := tp, prompt := p }
  payload := ⟨a, none, none⟩
  entityNumber := none
  isPR := none

/-! ## Claim theorems -/

/-- C2: `filterCommentsToTriggerTime` returns its input unchanged when
the trigger time is absent; otherwise it is exactly the order-preserving
filter by the spec's keep-predicate (creation strictly before the
trigger and effective last-modification — `lastEditedAt` over
`updatedAt` — strictly before the trigger or absent, boundary equality
excluded); and an item created before the trigger whose `updatedAt` is
at or after it but whose `lastEditedAt` is before it is included. -/
theorem filterComments_matches_spec (items : List CommentT) (t : Int)
    (c : CommentT) (e u : Int) :
    filterCommentsToTriggerTime items none = items ∧
    filterCommentsToTriggerTime items (some t) = items.filter (specKeepComment t) ∧
    (c.createdAt < t → c.lastEditedAt = some e → e < t → c.updatedAt = some u →
      u ≥ t → filterCommentsToTriggerTime [c] (some t) = [c]) := by
  refine ⟨rfl, ?_, ?_⟩
  · unfold filterCommentsToTriggerTime
    apply List.filter_congr
    intro x _
    unfold specKeepComment
    rcases hEff : (match x.lastEditedAt with
                   | some e => some e
                   | none => x.updatedAt) with _ | le
    · rcases le_or_lt t x.createdAt with h1 | h1
      · simp [hEff, not_lt.mpr h1, h1]
      · simp [hEff, h1, not_le.mpr h1]
    · rcases le_or_lt t x.createdAt with h1 | h1
      · simp [hEff, not_lt.mpr h1, h1]
      · rcases le_or_lt t le with h2 | h2
        · simp [hEff, h1, not_le.mpr h1, h2, not_lt.mpr h2]
        · simp [hEff, h1, not_le.mpr h1, h2, not_le.mpr h2]
  · intro h1 h2 h3 _ _
    unfold filterCommentsToTriggerTime
    simp [List.filter, h2, not_le.mpr h1, not_le.mpr h3]

theorem filterComments_matches_spec_witness :
    filterCommentsToTriggerTime [⟨0, some 9, some 1⟩] (some 5) = [⟨0, some 9, some 1⟩] :=
  (filterComments_matches_spec [] 5 ⟨0, some 9, some 1⟩ 1 9).2.2
    (by decide) rfl (by decide) rfl (by decide)

/-- C9: on automation contexts, agent mode's `shouldTrigger` is true
exactly when the explicit prompt input is non-empty; a schedule or
dispatch event with an empty prompt never triggers. -/
theorem agentShouldTrigger_iff_prompt (ctx : GitHubContext)
    (_h : isAutomationContext ctx = true) :
    (agentShouldTrigger ctx = true ↔ ctx.inputs.prompt ≠ "") ∧
    (ctx.inputs.prompt = "" → agentShouldTrigger ctx = false) := by
  constructor
  · simp [agentShouldTrigger, jsTruthyStr]
  · intro hp
    simp [agentShouldTrigger, jsTruthyStr, hp]

theorem agentShouldTrigger_iff_prompt_witness :
    isAutomationContext (mkCtx .schedule none false "") = true ∧
    agentShouldTrigger (mkCtx .schedule none false "") = false :=
  ⟨by decide, (agentShouldTrigger_iff_prompt (mkCtx .schedule none false "") (by decide)).2 rfl⟩

/-- C10: on a `pull_request` entity context with track-progress set and
no event action present, `detectMode` skips the action allow-list
validation, does not throw, and returns tag mode. -/
theorem detectMode_trackProgress_pr_noAction (trig : GitHubContext → Bool)
    (ctx : GitHubContext) (he : ctx.eventName = .pull_request)
    (htp : ctx.inputs.trackProgress = true) (ha : ctx.eventAction = none) :
    detectMode trig ctx = .ok .tag := by
  unfold detectMode validateTrackProgressEvent detectModeCore
  simp [htp, he, ha, isEntityContext, trackProgressValidEvents, jsTruthyOptStr]

theorem detectMode_trackProgress_pr_noAction_witness :
    detectMode (fun _ => false) (mkCtx .pull_request none true "") = .ok .tag :=
  detectMode_trackProgress_pr_noAction (fun _ => false) (mkCtx .pull_request none true "")
    rfl rfl rfl

/-- C5: on comment-bearing entity events with track-progress unset, an
explicit non-empty prompt selects agent mode regardless of the trigger
condition, and an empty prompt with a satisfied trigger condition
selects tag mode. -/
theorem detectMode_comment_events (trig : GitHubContext → Bool) (ctx : GitHubContext)
    (htp : ctx.inputs.trackProgress = false)
    (hev : isCommentEventName ctx.eventName = true) :
    (ctx.inputs.prompt ≠ "" → detectMode trig ctx = .ok .agent) ∧
    (ctx.inputs.prompt = "" → trig ctx = true → detectMode trig ctx = .ok .tag) := by
  have hent : isEntityContext ctx = true := by
    unfold isCommentEventName at hev
    unfold isEntityContext
    rcases hE : ctx.eventName <;> simp [hE] at hev ⊢
  constructor
  · intro hp
    unfold detectMode detectModeCore
    simp [htp, hent, hev, jsTruthyStr, hp]
  · intro hp htrig
    unfold detectMode detectModeCore
    have hne : ctx.eventName ≠ .issues := by
      unfold isCommentEventName at hev
      rcases hE : ctx.eventName <;> simp [hE] at hev ⊢
    simp [htp, hent, hev, jsTruthyStr, hp, htrig, hne]

theorem detectMode_comment_events_witness :
    detectMode (fun _ => true) (mkCtx .issue_comment (some "created") false "") = .ok .tag :=
  (detectMode_comment_events (fun _ => true) (mkCtx .issue_comment (some "created") false "")
    rfl (by decide)).2 rfl rfl

/-- C6: `parseGitHubContext` produces for a raw `pull_request_target`
event exactly the context it produces for a `pull_request` event with
the same payload — so no downstream predicate can distinguish them —
and that context has event name `pull_request`, the pull request's
number as entity number, and `isPR` true. -/
theorem parseGitHubContext_pull_request_target_alias (env : EnvVars) (g : ActionsContext) :
    parseGitHubContext env { g with eventName := "pull_request_target" } =
      parseGitHubContext env { g with eventName := "pull_request" } ∧
    (∀ pr, g.payload.pull_request = some pr → ∃ ctx,
      parseGitHubContext env { g with eventName := "pull_request_target" } = .ok ctx ∧
      ctx.eventName = .pull_request ∧ ctx.entityNumber = some pr.number ∧
      ctx.isPR = some true) := by
  constructor
  · cases g
    rfl
  · intro pr hpr
    refine ⟨commonContext env { g with eventName := "pull_request_target" }
      .pull_request (some pr.number) (some true), ?_, rfl, rfl, rfl⟩
    show (match g.payload.pull_request with
          | some pr => Except.ok (commonContext env { g with eventName := "pull_request_target" }
              .pull_request (some pr.number) (some true))
          | none => Except.error
              "TypeError: Cannot read properties of undefined (reading 'number')") = _
    rw [hpr]

theorem parseGitHubContext_pull_request_target_alias_witness :
    ∃ ctx,
      parseGitHubContext
        ⟨some "1", none, none, none, none, none, none, none, none, none, none, none, none,
          none⟩
        ⟨"pull_request_target", ⟨some "opened", none, some ⟨7⟩⟩, "o", "r", "alice"⟩ =
        .ok ctx ∧
      ctx.eventName = .pull_request ∧ ctx.entityNumber = some 7 ∧ ctx.isPR = some true :=
  (parseGitHubContext_pull_request_target_alias
    ⟨some "1", none, none, none, none, none, none, none, none, none, none, none, none, none⟩
    ⟨"pull_request_target", ⟨some "opened", none, some ⟨7⟩⟩, "o", "r", "alice"⟩).2 ⟨7⟩ rfl

/-- `needle` occurs inside `hay` (as a contiguous substring). -/
def strContains (hay needle : String) : Prop :=
  needle.data <:+: hay.data

theorem strContains_of_append (a b c : String) : strContains (a ++ b ++ c) b := by
  refine ⟨a.data, c.data, ?_⟩
  simp [strContains, String.data_append]

/-- C8: for a non-`"User"` actor, `checkHumanActor` passes exactly when
the trimmed allow-list is `"*"` or the normalized actor (lower-cased,
trailing `[bot]` stripped) occurs in the normalized allow-list; in
particular `dependabot[bot]` matches an entry `dependabot[bot]` or bare
`dependabot`; otherwise it throws an error naming the (normalized)
actor and the account type. -/
theorem checkHumanActor_spec (actorType actor allowedBots : String)
    (h : actorType ≠ "User") :
    (checkHumanActor actorType actor allowedBots = .ok () ↔
      (jsTrim allowedBots = "*" ∨
        stripBotSuffix (jsToLower actor) ∈ normalizedAllowedBots allowedBots)) ∧
    checkHumanActor actorType "dependabot[bot]" "dependabot[bot]" = .ok () ∧
    checkHumanActor actorType "dependabot[bot]" "dependabot" = .ok () ∧
    (¬(jsTrim allowedBots = "*" ∨
        stripBotSuffix (jsToLower actor) ∈ normalizedAllowedBots allowedBots) →
      ∃ msg, checkHumanActor actorType actor allowedBots = .error msg ∧
        strContains msg (stripBotSuffix (jsToLower actor)) ∧ strContains msg actorType) := by
  refine ⟨?_, ?_, ?_, ?_⟩
  · unfold checkHumanActor
    rw [if_pos h]
    by_cases hstar : jsTrim allowedBots = "*"
    · simp [hstar]
    · by_cases hmem : stripBotSuffix (jsToLower actor) ∈ normalizedAllowedBots allowedBots
      · simp [hstar, hmem]
      · simp [hstar, hmem]
  · unfold checkHumanActor
    rw [if_pos h, if_neg (by decide), if_pos (by decide)]
  · unfold checkHumanActor
    rw [if_pos h, if_neg (by decide), if_pos (by decide)]
  · intro hno
    push_neg at hno
    refine ⟨"Workflow initiated by non-human actor: " ++ stripBotSuffix (jsToLower actor)
      ++ " (type: " ++ actorType
      ++ "). Add bot to allowed_bots list or use '*' to allow all bots.", ?_, ?_, ?_⟩
    · unfold checkHumanActor
      rw [if_pos h, if_neg hno.1, if_neg hno.2]
    · have := strContains_of_append "Workflow initiated by non-human actor: "
        (stripBotSuffix (jsToLower actor))
        (" (type: " ++ actorType ++ "). Add bot to allowed_bots list or use '*' to allow all bots.")
      simpa [strContains, String.data_append, List.append_assoc] using this
    · have := strContains_of_append
        ("Workflow initiated by non-human actor: " ++ stripBotSuffix (jsToLower actor)
          ++ " (type: ") actorType
        "). Add bot to allowed_bots list or use '*' to allow all bots."
      simpa [strContains, String.data_append, List.append_assoc] using this

theorem checkHumanActor_spec_witness :
    checkHumanActor "Bot" "dependabot[bot]" "dependabot" = .ok () :=
  (checkHumanActor_spec "Bot" "dependabot[bot]" "dependabot" (by decide)).2.2.1

/-- C1 (amended): with a directly-supplied token and a configured
bypass list whose trimmed value is `"*"` or contains the actor exactly,
`checkWritePermissions` returns true regardless of the permission
lookup (even a failing one); with an app-issued token the bypass never
applies, and an actor whose login does not end in `[bot]` with
collaborator permission `"read"` gets `false`.  (A `[bot]`-suffixed
actor is accepted by the separate bot rule regardless of token
provenance — the unamended claim fails there, see the
counterexample.) -/
theorem checkWritePermissions_bypass_narrow (actor s : String) (anwu : Option String)
    (tok : Option Bool) (permApi : Except String String) :
    ((jsTrim s = "*" ∨ actor ∈ allowedUserList (jsTrim s)) →
      checkWritePermissions actor (some s) (some true) permApi = .ok true) ∧
    (tok ≠ some true → jsEndsWith actor "[bot]" = false →
      checkWritePermissions actor anwu tok (.ok "read") = .ok false) := by
  constructor
  · intro hby
    have hne : s ≠ "" := by
      intro hs
      subst hs
      rcases hby with hstar | hmem
      · exact absurd hstar (by decide)
      · have : allowedUserList (jsTrim "") = [] := by decide
        rw [this] at hmem
        exact absurd hmem (List.not_mem_nil actor)
    unfold checkWritePermissions
    rw [if_pos ⟨by simpa [jsTruthyOptArg] using hne, rfl⟩]
    rcases hby with hstar | hmem
    · simp [hstar]
    · have htrimne : jsTrim s ≠ "" := by
        intro ht
        rw [ht] at hmem
        have : allowedUserList "" = [] := by decide
        rw [this] at hmem
        exact absurd hmem (List.not_mem_nil actor)
      by_cases hstar : jsTrim s = "*"
      · simp [hstar]
      · simp only [Option.getD]
        rw [if_neg hstar, if_pos htrimne, if_pos hmem]
  · intro htok hbot
    unfold checkWritePermissions
    rw [if_neg (fun hc => htok hc.2)]
    unfold checkWritePermissionsRest
    rw [if_neg (by simp [hbot])]
    simp

theorem checkWritePermissions_bypass_narrow_witness :
    checkWritePermissions "alice" (some "bob , alice") (some true) (.error "boom") = .ok true ∧
    checkWritePermissions "alice" (some "alice") (some false) (.ok "read") = .ok false :=
  ⟨(checkWritePermissions_bypass_narrow "alice" "bob , alice" none none (.error "boom")).1
      (Or.inr (by decide)),
    (checkWritePermissions_bypass_narrow "alice" "" (some "alice") (some false)
      (.ok "read")).2 (by decide) (by decide)⟩

/-- C1 counterexample: for the `[bot]`-suffixed actor `alice[bot]`, an
app-issued token (`githubTokenProvided = false`) and collaborator
permission `"read"`, `checkWritePermissions` returns `true` (the bot
fast path), not `false` as the unamended claim requires. -/
theorem checkWritePermissions_bot_read_counterexample :
    checkWritePermissions "alice[bot]" (some "alice[bot]") (some false) (.ok "read") =
      .ok true := by
  rfl

/-- C4 (amended): `detectMode` is total over the nine event names — it
returns `tag` or `agent` (an `.ok` result) unless track-progress is set
and validation rejects the context.  It throws with a message containing
"track_progress is only supported" exactly when track-progress is set
and the event is outside the five supported ones, and it throws on a
`pull_request` event with track-progress set exactly when the action is
present **and non-empty** and outside
{opened, synchronize, ready_for_review, reopened}.  (The unamended
claim — throwing whenever the action is *present* and outside the
list — fails at the empty-string action, which JavaScript treats as
falsy and skips; see the counterexample.) -/
theorem detectMode_totality (trig : GitHubContext → Bool) (ctx : GitHubContext) :
    ((∃ m, detectMode trig ctx = .ok m) ↔
      (ctx.inputs.trackProgress = false ∨
        (ctx.eventName ∈ trackProgressValidEvents ∧
          (ctx.eventName = .pull_request →
            ∀ a, ctx.eventAction = some a → a ≠ "" → a ∈ trackProgressValidActions)))) ∧
    (ctx.inputs.trackProgress = true → ctx.eventName ∉ trackProgressValidEvents →
      ∃ msg, detectMode trig ctx = .error msg ∧
        strContains msg "track_progress is only supported") := by
  have hphrase : ∀ t : String,
      strContains ("track_progress is only supported" ++ t)
        "track_progress is only supported" :=
    fun t => ⟨[], t.data, by simp [String.data_append]⟩
  have hmsg1 : ∀ e : String,
      strContains
        (("track_progress is only supported for events: pull_request, issues, issue_comment, pull_request_review_comment, pull_request_review. Current event: " : String)
          ++ e)
        "track_progress is only supported" := by
    intro e
    refine ⟨[], (" for events: pull_request, issues, issue_comment, pull_request_review_comment, pull_request_review. Current event: ").data
      ++ e.data, ?_⟩
    simp only [List.nil_append, String.data_append, ← List.append_assoc]
    congr 1
  cases htp : ctx.inputs.trackProgress with
  | false =>
    refine ⟨⟨fun _ => Or.inl rfl, fun _ => ⟨detectModeCore trig ctx, by simp [detectMode, htp]⟩⟩,
      fun h _ => absurd h (by decide)⟩
  | true =>
    have hdetect : detectMode trig ctx =
        (match validateTrackProgressEvent ctx with
         | .error e => .error e
         | .ok _ => .ok (detectModeCore trig ctx)) := by
      simp [detectMode, htp]
    by_cases hev : ctx.eventName ∈ trackProgressValidEvents
    · have herr2 : ∀ h2 : ctx.eventName ∉ trackProgressValidEvents, False := fun h2 => h2 hev
      refine ⟨?_, fun _ h2 => absurd hev h2⟩
      have hval_shape : validateTrackProgressEvent ctx =
          (if ctx.eventName = .pull_request ∧ jsTruthyOptStr ctx.eventAction then
            if (ctx.eventAction.getD "") ∉ trackProgressValidActions then
              .error ("track_progress for pull_request events is only supported for actions: opened, synchronize, ready_for_review, reopened. Current action: "
                ++ ctx.eventAction.getD "")
            else .ok ()
          else .ok ()) := by
        unfold validateTrackProgressEvent
        rw [if_neg (not_not_intro hev)]
      by_cases hpr : ctx.eventName = .pull_request
      · cases ha : ctx.eventAction with
        | none =>
          have hok : detectMode trig ctx = .ok (detectModeCore trig ctx) := by
            rw [hdetect, hval_shape, ha, if_neg (by simp [jsTruthyOptStr])]
          refine ⟨fun _ => Or.inr ⟨hev, fun _ a haeq => ?_⟩, fun _ => ⟨_, hok⟩⟩
          simp at haeq
        | some a =>
          by_cases hae : a = ""
          · have hok : detectMode trig ctx = .ok (detectModeCore trig ctx) := by
              rw [hdetect, hval_shape, ha, if_neg (by simp [jsTruthyOptStr, hae])]
            refine ⟨fun _ => Or.inr ⟨hev, fun _ a' haeq h' => ?_⟩, fun _ => ⟨_, hok⟩⟩
            injection haeq with h''
            exact absurd (h'' ▸ hae) h'
          · by_cases hact : a ∈ trackProgressValidActions
            · have hok : detectMode trig ctx = .ok (detectModeCore trig ctx) := by
                rw [hdetect, hval_shape, ha, if_pos ⟨hpr, by simp [jsTruthyOptStr, hae]⟩,
                  if_neg (by simpa using hact)]
              refine ⟨fun _ => Or.inr ⟨hev, fun _ a' haeq _ => ?_⟩, fun _ => ⟨_, hok⟩⟩
              injection haeq with h''
              exact h'' ▸ hact
            · have herr : detectMode trig ctx = .error
                  ("track_progress for pull_request events is only supported for actions: opened, synchronize, ready_for_review, reopened. Current action: "
                    ++ a) := by
                rw [hdetect, hval_shape, ha, if_pos ⟨hpr, by simp [jsTruthyOptStr, hae]⟩,
                  if_pos (by simpa using hact)]
                rfl
              constructor
              · rintro ⟨m, hm⟩
                rw [herr] at hm
                cases hm
              · rintro (hor | ⟨_, himp⟩)
                · exact absurd hor (by decide)
                · exact absurd (himp hpr a rfl hae) hact
      · have hok : detectMode trig ctx = .ok (detectModeCore trig ctx) := by
          rw [hdetect, hval_shape, if_neg (fun hc => hpr hc.1)]
        exact ⟨fun _ => Or.inr ⟨hev, fun h => absurd h hpr⟩, fun _ => ⟨_, hok⟩⟩
    · have herr : detectMode trig ctx = .error
          ("track_progress is only supported for events: pull_request, issues, issue_comment, pull_request_review_comment, pull_request_review. Current event: "
            ++ ctx.eventName.toStr) := by
        rw [hdetect]
        unfold validateTrackProgressEvent
        rw [if_pos hev]
      refine ⟨⟨?_, ?_⟩, fun _ _ => ⟨_, herr, ?_⟩⟩
      · rintro ⟨m, hm⟩
        rw [herr] at hm
        cases hm
      · rintro (hor | ⟨hmem, _⟩)
        · exact absurd hor (by decide)
        · exact absurd hmem hev
      · exact hmsg1 _

theorem detectMode_totality_witness :
    ∃ msg,
      detectMode (fun _ => false) (mkCtx .workflow_dispatch none true "") = .error msg ∧
      strContains msg "track_progress is only supported" :=
  (detectMode_totality (fun _ => false) (mkCtx .workflow_dispatch none true "")).2 rfl
    (by decide)

/-- C4 counterexample: with track-progress set on a `pull_request` event
whose action is *present* but the empty string (outside the action
allow-list), `detectMode` does not throw — it returns tag mode. -/
theorem detectMode_emptyAction_counterexample :
    (mkCtx .pull_request (some "") true "").inputs.trackProgress = true ∧
    (mkCtx .pull_request (some "") true "").eventAction = some "" ∧
    "" ∉ trackProgressValidActions ∧
    detectMode (fun _ => false) (mkCtx .pull_request (some "") true "") = .ok .tag :=
  ⟨rfl, rfl, by decide, rfl⟩

/-! ## List helpers for the scanner proofs -/

theorem pfx_total {α : Type} {l p q : List α} (hp : p <+: l) (hq : q <+: l) :
    p <+: q ∨ q <+: p := by
  obtain ⟨u, rfl⟩ := hp
  obtain ⟨v, hv⟩ := hq
  rcases List.append_eq_append_iff.mp hv with ⟨w, hw1, _⟩ | ⟨w, hw1, _⟩
  · exact Or.inr ⟨w, hw1.symm⟩
  · exact Or.inl ⟨w, hw1.symm⟩

theorem pfxOf_iff {a b : List Char} : a.isPrefixOf b = true ↔ a <+: b := by
  exact List.isPrefixOf_iff_prefix

theorem takeCount_append (p : Char → Bool) :
    ∀ (b r : List Char), (∀ c ∈ b, p c = true) →
      takeCount p b.length (b ++ r) = some r := by
  intro b
  induction b with
  | nil => intro r _; rfl
  | cons c cs ih =>
    intro r h
    simp only [List.length_cons, List.cons_append, takeCount, h c (List.mem_cons_self c cs),
      if_true]
    exact ih r fun d hd => h d (List.mem_cons_of_mem c hd)

theorem takeWhile_all_append (p : Char → Bool) :
    ∀ (b r : List Char), (∀ c ∈ b, p c = true) →
      (b ++ r).takeWhile p = b ++ r.takeWhile p := by
  intro b
  induction b with
  | nil => intro r _; rfl
  | cons c cs ih =>
    intro r h
    simp only [List.cons_append, List.takeWhile_cons, h c (List.mem_cons_self c cs), if_true]
    rw [ih r fun d hd => h d (List.mem_cons_of_mem c hd)]

/-! ## Redaction correctness (claim C7) -/

theorem classicTokM_none {lit : List Char} {prev : Option Char} {l : List Char}
    (h : ¬ lit <+: l) : classicTokM lit prev l = none := by
  have hpf : lit.isPrefixOf l = false := by
    rw [← Bool.not_eq_true, pfxOf_iff]
    exact h
  simp [classicTokM, hpf]

theorem patTokM_none {prev : Option Char} {l : List Char}
    (h : ¬ "github_pat_".data <+: l) : patTokM prev l = none := by
  have hpf : "github_pat_".data.isPrefixOf l = false := by
    rw [← Bool.not_eq_true, pfxOf_iff]
    exact h
  simp [patTokM, hpf]

theorem not_pfx_of_no_underscore {lit l : List Char} (hu : '_' ∈ lit) (hl : '_' ∉ l) :
    ¬ lit <+: l :=
  fun h => hl (h.sublist.subset hu)

theorem runScan_eq_of_none (m : Matcher) (l : List Char)
    (h : ∀ prev c cs, (c :: cs) <:+ l → m prev (c :: cs) = none) :
    runScan m ⟨l⟩ = ⟨l⟩ :=
  congrArg String.mk (scanRepl_id m l h _ none)

theorem boundaryBefore_of_lastOr {pre : List Char}
    (hpre : ∀ c, pre.getLast? = some c → isWordChar c = false) :
    boundaryBefore (lastOr none pre) = true := by
  unfold lastOr boundaryBefore
  cases hg : pre.getLast? with
  | none => rfl
  | some c => simp [hpre c hg]

theorem boundaryAfter_of_head {post : List Char}
    (hpost : ∀ c, post.head? = some c → isWordChar c = false) :
    boundaryAfter post = true := by
  unfold boundaryAfter
  cases hp : post with
  | nil => rfl
  | cons c cs => simp [hpost c (by rw [hp]; rfl)]

theorem classicTokM_match (lit body post : List Char) (prev : Option Char)
    (hb : boundaryBefore prev = true)
    (hlen : body.length = 36) (halnum : ∀ c ∈ body, isAsciiAlphanum c = true)
    (hpost : ∀ c, post.head? = some c → isWordChar c = false) :
    classicTokM lit prev (lit ++ (body ++ post)) =
      some (redactedMarker,
        ((lit ++ (body ++ post)).take (lit.length + 36)).getLast?, post) := by
  unfold classicTokM
  have hpf : lit.isPrefixOf (lit ++ (body ++ post)) = true :=
    pfxOf_iff.mpr ⟨body ++ post, rfl⟩
  have hdrop : (lit ++ (body ++ post)).drop lit.length = body ++ post :=
    List.drop_left lit (body ++ post)
  have htc : takeCount isAsciiAlphanum 36 (body ++ post) = some post :=
    hlen ▸ takeCount_append isAsciiAlphanum body post halnum
  rw [hb, hpf, hdrop, htc]
  simp [boundaryAfter_of_head hpost]

theorem patTokM_match (body post : List Char) (prev : Option Char)
    (hb : boundaryBefore prev = true)
    (hlen1 : 11 ≤ body.length) (hlen2 : body.length ≤ 221)
    (hword : ∀ c ∈ body, isWordChar c = true)
    (hpost : ∀ c, post.head? = some c → isWordChar c = false) :
    patTokM prev ("github_pat_".data ++ (body ++ post)) =
      some (redactedMarker, body.getLast?, post) := by
  unfold patTokM
  have hpf : "github_pat_".data.isPrefixOf ("github_pat_".data ++ (body ++ post)) = true :=
    pfxOf_iff.mpr ⟨body ++ post, rfl⟩
  have hdrop : ("github_pat_".data ++ (body ++ post)).drop 11 = body ++ post :=
    List.drop_left "github_pat_".data (body ++ post)
  have hpostTW : post.takeWhile isWordChar = [] := by
    cases hp : post with
    | nil => rfl
    | cons c cs => simp [List.takeWhile_cons, hpost c (by rw [hp]; rfl)]
  have hrun : (body ++ post).takeWhile isWordChar = body := by
    rw [takeWhile_all_append isWordChar body post hword, hpostTW, List.append_nil]
  have hrdrop : (body ++ post).drop body.length = post := List.drop_left body post
  rw [hb, hpf, hdrop]
  simp only [hrun, hrdrop]
  simp [hlen1, hlen2]

/-! ## Tracked-previous-character scan lemmas -/

theorem getLast?_cons_ne_none (c : Char) (cs : List Char) : (c :: cs).getLast? ≠ none := by
  induction cs generalizing c with
  | nil => simp
  | cons d ds ih => rw [List.getLast?_cons_cons]; exact ih d

theorem lastOr_eq_getLast (pv : Option Char) (u : List Char) (h : u ≠ []) :
    lastOr pv u = some (u.getLast h) := by
  unfold lastOr
  rw [List.getLast?_eq_getLast u h]

theorem lastOr_ne {u : List Char} (h : u ≠ []) (pv pv' : Option Char) :
    lastOr pv u = lastOr pv' u := by
  rw [lastOr_eq_getLast pv u h, lastOr_eq_getLast pv' u h]

theorem lastOr_append (pv : Option Char) (a b : List Char) :
    lastOr pv (a ++ b) = lastOr (lastOr pv a) b := by
  cases b with
  | nil => simp [lastOr]
  | cons c cs =>
    unfold lastOr
    rw [List.getLast?_append_of_ne_nil _ (by simp : (c :: cs) ≠ [])]
    cases hg : (c :: cs).getLast? with
    | none => exact absurd hg (getLast?_cons_ne_none c cs)
    | some d => rfl

theorem split_append_cases {α : Type} {a b u p : List α} (h : a ++ b = u ++ p)
    (_hp : p ≠ []) :
    (∃ q, a = u ++ q ∧ q ≠ [] ∧ p = q ++ b) ∨ (∃ v, b = v ++ p ∧ u = a ++ v) := by
  rcases List.append_eq_append_iff.mp h with ⟨w, hw1, hw2⟩ | ⟨w, hw1, hw2⟩
  · exact Or.inr ⟨w, hw2, hw1⟩
  · by_cases hw : w = []
    · subst hw
      exact Or.inr ⟨[], by simpa using hw2.symm, by simpa using hw1.symm⟩
    · exact Or.inl ⟨w, hw1, hw, hw2⟩

theorem track_none_append {m : Matcher} {pv : Option Char} {a b : List Char}
    (ha : ∀ u p, a = u ++ p → p ≠ [] → m (lastOr pv u) (p ++ b) = none)
    (hb : ∀ u p, b = u ++ p → p ≠ [] → m (lastOr (lastOr pv a) u) p = none) :
    ∀ u p, a ++ b = u ++ p → p ≠ [] → m (lastOr pv u) p = none := by
  intro u p h hp
  rcases split_append_cases h hp with ⟨q, h1, hq, rfl⟩ | ⟨v, h1, rfl⟩
  · exact ha u q h1 hq
  · rw [lastOr_append]
    exact hb v p h1 hp

theorem scanRepl_id_track (m : Matcher) :
    ∀ (l : List Char) (prev0 : Option Char),
      (∀ u p, l = u ++ p → p ≠ [] → m (lastOr prev0 u) p = none) →
      ∀ f, scanRepl m f prev0 l = l := by
  intro l
  induction l with
  | nil => intro prev0 _ f; cases f <;> rfl
  | cons c cs ih =>
    intro prev0 h f
    cases f with
    | zero => rfl
    | succ f =>
      have h0 : m prev0 (c :: cs) = none := by
        simpa [lastOr] using h [] (c :: cs) rfl (by simp)
      simp only [scanRepl, h0]
      rw [ih (some c) (fun u p hup hp => by
        have := h (c :: u) p (by simp [hup]) hp
        rwa [lastOr_cons] at this) f]

theorem scanRepl_copy_track (m : Matcher) :
    ∀ (pre rest : List Char) (prev0 : Option Char),
      (∀ u p, pre = u ++ p → p ≠ [] → m (lastOr prev0 u) (p ++ rest) = none) →
      ∀ f, scanRepl m (pre.length + f) prev0 (pre ++ rest) =
        pre ++ scanRepl m f (lastOr prev0 pre) rest := by
  intro pre
  induction pre with
  | nil => intro rest prev0 _ f; simp [lastOr]
  | cons c cs ih =>
    intro rest prev0 h f
    have h0 : m prev0 ((c :: cs) ++ rest) = none := by
      simpa [lastOr] using h [] (c :: cs) rfl (by simp)
    have hlen : (c :: cs).length + f = (cs.length + f) + 1 := by
      simp [Nat.add_comm, Nat.add_assoc, Nat.add_left_comm]
    rw [hlen]
    simp only [List.cons_append] at h0
    have hstep : scanRepl m (cs.length + f + 1) prev0 (c :: (cs ++ rest)) =
        c :: scanRepl m (cs.length + f) (some c) (cs ++ rest) := by
      simp only [scanRepl, h0]
    simp only [List.cons_append]
    rw [hstep]
    rw [ih rest (some c) (fun u p hup hp => by
      have := h (c :: u) p (by simp [hup]) hp
      rwa [lastOr_cons] at this) f]
    rw [lastOr_cons]

theorem runScan_id_track (m : Matcher) (l : List Char)
    (h : ∀ u p, l = u ++ p → p ≠ [] → m (lastOr none u) p = none) :
    runScan m ⟨l⟩ = ⟨l⟩ :=
  congrArg String.mk (scanRepl_id_track m l none h _)

/-- Does the matcher fire at any position, with the previous character
tracked exactly as `scanRepl` tracks it along unmatched text? -/
def scanHit (m : Matcher) : Option Char → List Char → Bool
  | _, [] => false
  | prev, c :: cs => (m prev (c :: cs)).isSome || scanHit m (some c) cs

theorem scanHit_none (m : Matcher) :
    ∀ (l : List Char) (prev0 : Option Char), scanHit m prev0 l = false →
      ∀ u p, l = u ++ p → p ≠ [] → m (lastOr prev0 u) p = none := by
  intro l
  induction l with
  | nil =>
    intro prev0 _ u p h hp
    exact absurd (List.append_eq_nil.mp h.symm).2 hp
  | cons c cs ih =>
    intro prev0 hs u p h hp
    rw [scanHit, Bool.or_eq_false_iff] at hs
    obtain ⟨h1, h2⟩ := hs
    have h1' : m prev0 (c :: cs) = none :=
      Option.not_isSome_iff_eq_none.mp (by simp [h1])
    cases u with
    | nil =>
      have : p = c :: cs := by simpa using h.symm
      subst this
      exact h1'
    | cons d u' =>
      simp only [List.cons_append, List.cons.injEq] at h
      obtain ⟨rfl, hcs⟩ := h
      rw [lastOr_cons]
      exact ih (some c) h2 u' p hcs hp

/-! ## Matcher inversion and confinement -/

theorem takeCount_some (q : Char → Bool) :
    ∀ (n : Nat) (l r : List Char), takeCount q n l = some r →
      ∃ b, l = b ++ r ∧ b.length = n ∧ ∀ c ∈ b, q c = true := by
  intro n
  induction n with
  | zero =>
    intro l r h
    refine ⟨[], ?_, rfl, by simp⟩
    simpa [takeCount] using h
  | succ n ih =>
    intro l r h
    cases l with
    | nil => exact absurd h (by simp [takeCount])
    | cons c cs =>
      rw [takeCount] at h
      by_cases hq : q c = true
      · rw [if_pos hq] at h
        obtain ⟨b, hb1, hb2, hb3⟩ := ih cs r h
        refine ⟨c :: b, by rw [hb1]; rfl, by simp [hb2], ?_⟩
        intro d hd
        rcases List.mem_cons.mp hd with rfl | hd'
        · exact hq
        · exact hb3 d hd'
      · rw [if_neg hq] at h
        cases h

theorem classicTokM_some {lit : List Char} {prev : Option Char} {l out : List Char}
    {np : Option Char} {r : List Char}
    (h : classicTokM lit prev l = some (out, np, r)) :
    boundaryBefore prev = true ∧
      ∃ body, l = lit ++ body ++ r ∧ body.length = 36 ∧
        (∀ c ∈ body, isAsciiAlphanum c = true) ∧ boundaryAfter r = true := by
  unfold classicTokM at h
  by_cases hb : boundaryBefore prev = true
  · rw [if_pos hb] at h
    by_cases hpf : lit.isPrefixOf l = true
    · rw [if_pos hpf] at h
      cases htc : takeCount isAsciiAlphanum 36 (l.drop lit.length) with
      | none => simp only [htc] at h; cases h
      | some rest =>
        simp only [htc] at h
        by_cases hba : boundaryAfter rest = true
        · rw [if_pos hba] at h
          simp only [Option.some.injEq, Prod.mk.injEq] at h
          obtain ⟨t, ht⟩ := pfxOf_iff.mp hpf
          have hdrop : l.drop lit.length = t := by rw [← ht]; exact List.drop_left lit t
          rw [hdrop] at htc
          obtain ⟨body, hb1, hb2, hb3⟩ := takeCount_some isAsciiAlphanum 36 t rest htc
          have hrr : rest = r := h.2.2
          subst hrr
          exact ⟨hb, body, by rw [← ht, hb1, List.append_assoc], hb2, hb3, hba⟩
        · rw [if_neg hba] at h; cases h
    · rw [if_neg hpf] at h; cases h
  · rw [if_neg hb] at h; cases h

theorem patTokM_eq (prev : Option Char) (l : List Char) :
    patTokM prev l =
      if boundaryBefore prev then
        if ("github_pat_".data).isPrefixOf l then
          if 11 ≤ ((l.drop 11).takeWhile isWordChar).length &&
              ((l.drop 11).takeWhile isWordChar).length ≤ 221 then
            some (redactedMarker, ((l.drop 11).takeWhile isWordChar).getLast?,
              (l.drop 11).drop ((l.drop 11).takeWhile isWordChar).length)
          else none
        else none
      else none := rfl

theorem dropWhile_head_false (q : Char → Bool) :
    ∀ (l : List Char) (c : Char), (l.dropWhile q).head? = some c → q c = false := by
  intro l
  induction l with
  | nil => intro c hc; cases hc
  | cons d ds ih =>
    intro c hc
    rw [List.dropWhile_cons] at hc
    by_cases hd : q d = true
    · rw [if_pos hd] at hc
      exact ih c hc
    · rw [if_neg hd] at hc
      simp only [List.head?_cons, Option.some.injEq] at hc
      subst hc
      exact Bool.not_eq_true _ ▸ hd

theorem patTokM_some {prev : Option Char} {l out : List Char}
    {np : Option Char} {r : List Char}
    (h : patTokM prev l = some (out, np, r)) :
    boundaryBefore prev = true ∧
      ∃ body, l = "github_pat_".data ++ body ++ r ∧ 11 ≤ body.length ∧
        body.length ≤ 221 ∧ (∀ c ∈ body, isWordChar c = true) ∧
        (∀ c, r.head? = some c → isWordChar c = false) := by
  rw [patTokM_eq] at h
  by_cases hb : boundaryBefore prev = true
  · rw [if_pos hb] at h
    by_cases hpf : ("github_pat_".data).isPrefixOf l = true
    · rw [if_pos hpf] at h
      by_cases hlenc : (11 ≤ ((l.drop 11).takeWhile isWordChar).length &&
          ((l.drop 11).takeWhile isWordChar).length ≤ 221) = true
      · rw [if_pos hlenc] at h
        simp only [Option.some.injEq, Prod.mk.injEq] at h
        obtain ⟨t, ht⟩ := pfxOf_iff.mp hpf
        have hdrop : l.drop 11 = t := by
          rw [← ht]; exact List.drop_left "github_pat_".data t
        rw [hdrop] at h hlenc
        have hr : r = t.drop (t.takeWhile isWordChar).length := h.2.2.symm
        have htw : t.takeWhile isWordChar ++ t.dropWhile isWordChar = t :=
          List.takeWhile_append_dropWhile isWordChar t
        have hrd : t.drop (t.takeWhile isWordChar).length = t.dropWhile isWordChar := by
          have h0 := List.drop_left (t.takeWhile isWordChar) (t.dropWhile isWordChar)
          rwa [htw] at h0
        rw [hrd] at hr
        rw [Bool.and_eq_true, decide_eq_true_eq, decide_eq_true_eq] at hlenc
        refine ⟨hb, t.takeWhile isWordChar, ?_, hlenc.1, hlenc.2, ?_, ?_⟩
        · rw [← ht, List.append_assoc, hr, htw]
        · intro c hc
          exact List.mem_takeWhile_imp hc
        · intro c hc
          rw [hr] at hc
          exact dropWhile_head_false isWordChar t c hc
      · rw [if_neg hlenc] at h; cases h
    · rw [if_neg hpf] at h; cases h
  · rw [if_neg hb] at h; cases h

theorem word_of_alnum {c : Char} (h : isAsciiAlphanum c = true) : isWordChar c = true := by
  unfold isAsciiAlphanum at h
  unfold isWordChar
  rw [h]
  rfl

theorem classicTokM_confine {lit : List Char} (hlitw : ∀ c ∈ lit, isWordChar c = true)
    {prev : Option Char} {p rest : List Char} (hp : p ≠ [])
    (hlast : ∀ c, p.getLast? = some c → isWordChar c = false)
    (hnone : classicTokM lit prev p = none) :
    classicTokM lit prev (p ++ rest) = none := by
  cases hm : classicTokM lit prev (p ++ rest) with
  | none => rfl
  | some x =>
    obtain ⟨out, np, r⟩ := x
    obtain ⟨hb, body, hl, hlen, halnum, hba⟩ := classicTokM_some hm
    have hregw : ∀ c ∈ lit ++ body, isWordChar c = true := by
      intro c hc
      rcases List.mem_append.mp hc with hc' | hc'
      · exact hlitw c hc'
      · exact word_of_alnum (halnum c hc')
    have hplastw : isWordChar (p.getLast hp) = false :=
      hlast _ (List.getLast?_eq_getLast p hp)
    have hpfx_region : (lit ++ body) <+: p ++ rest := ⟨r, hl.symm⟩
    rcases pfx_total hpfx_region ⟨rest, rfl⟩ with hcase | hcase
    · obtain ⟨q, hq⟩ := hcase
      by_cases hq0 : q = []
      · subst hq0
        rw [List.append_nil] at hq
        have : isWordChar (p.getLast hp) = true :=
          hregw _ (hq ▸ List.getLast_mem hp)
        rw [hplastw] at this
        cases this
      · have h0 : (lit ++ body) ++ r = (lit ++ body) ++ (q ++ rest) := by
          rw [← List.append_assoc, hq, ← hl]
        have hr : r = q ++ rest := List.append_cancel_left h0
        have hqhead : boundaryAfter q = true := by
          cases hqc : q with
          | nil => exact absurd hqc hq0
          | cons d ds =>
            have : boundaryAfter (d :: (ds ++ rest)) = true := by
              rw [← List.cons_append, ← hqc, ← hr]
              exact hba
            unfold boundaryAfter at this ⊢
            exact this
        have hfire : classicTokM lit prev p ≠ none := by
          unfold classicTokM
          rw [if_pos hb,
            if_pos (pfxOf_iff.mpr ⟨body ++ q, by rw [← List.append_assoc, hq]⟩ :
              lit.isPrefixOf p = true)]
          have hdrop : p.drop lit.length = body ++ q := by
            rw [← hq, List.append_assoc]
            exact List.drop_left lit (body ++ q)
          rw [hdrop, ← hlen, takeCount_append isAsciiAlphanum body q halnum]
          simp [hqhead]
        exact absurd hnone hfire
    · have : isWordChar (p.getLast hp) = true :=
        hregw _ (hcase.sublist.subset (List.getLast_mem hp))
      rw [hplastw] at this
      cases this

theorem patTokM_confine {prev : Option Char} {p rest : List Char} (hp : p ≠ [])
    (hlast : ∀ c, p.getLast? = some c → isWordChar c = false)
    (hnone : patTokM prev p = none) :
    patTokM prev (p ++ rest) = none := by
  cases hm : patTokM prev (p ++ rest) with
  | none => rfl
  | some x =>
    obtain ⟨out, np, r⟩ := x
    obtain ⟨hb, body, hl, hl1, hl2, hword, hrh⟩ := patTokM_some hm
    have hregw : ∀ c ∈ "github_pat_".data ++ body, isWordChar c = true := by
      intro c hc
      rcases List.mem_append.mp hc with hc' | hc'
      · have hlitw : ∀ d ∈ "github_pat_".data, isWordChar d = true := by decide
        exact hlitw c hc'
      · exact hword c hc'
    have hplastw : isWordChar (p.getLast hp) = false :=
      hlast _ (List.getLast?_eq_getLast p hp)
    have hpfx_region : ("github_pat_".data ++ body) <+: p ++ rest := ⟨r, hl.symm⟩
    rcases pfx_total hpfx_region ⟨rest, rfl⟩ with hcase | hcase
    · obtain ⟨q, hq⟩ := hcase
      by_cases hq0 : q = []
      · subst hq0
        rw [List.append_nil] at hq
        have : isWordChar (p.getLast hp) = true :=
          hregw _ (hq ▸ List.getLast_mem hp)
        rw [hplastw] at this
        cases this
      · have h0 : ("github_pat_".data ++ body) ++ r =
            ("github_pat_".data ++ body) ++ (q ++ rest) := by
          rw [← List.append_assoc, hq, ← hl]
        have hr : r = q ++ rest := List.append_cancel_left h0
        have hqhead : ∃ d q', q = d :: q' ∧ isWordChar d = false := by
          cases hqc : q with
          | nil => exact absurd hqc hq0
          | cons d ds =>
            refine ⟨d, ds, rfl, ?_⟩
            apply hrh
            rw [hr, hqc]
            rfl
        obtain ⟨d, q', rfl, hdw⟩ := hqhead
        have hfire : patTokM prev p ≠ none := by
          rw [patTokM_eq]
          rw [if_pos hb,
            if_pos (pfxOf_iff.mpr ⟨body ++ d :: q', by rw [← List.append_assoc, hq]⟩ :
              ("github_pat_".data).isPrefixOf p = true)]
          have hdrop : p.drop 11 = body ++ d :: q' := by
            rw [← hq, List.append_assoc]
            exact List.drop_left "github_pat_".data (body ++ d :: q')
          have htw : (body ++ d :: q').takeWhile isWordChar = body := by
            rw [takeWhile_all_append isWordChar body (d :: q') hword,
              List.takeWhile_cons, hdw]
            simp
          rw [hdrop, htw]
          simp [hl1, hl2]
        exact absurd hnone hfire
    · have : isWordChar (p.getLast hp) = true :=
        hregw _ (hcase.sublist.subset (List.getLast_mem hp))
      rw [hplastw] at this
      cases this

theorem classicTokM_wordPrev {lit l : List Char} {c : Char} (h : isWordChar c = true) :
    classicTokM lit (some c) l = none := by
  simp [classicTokM, boundaryBefore, h]

theorem patTokM_wordPrev {l : List Char} {c : Char} (h : isWordChar c = true) :
    patTokM (some c) l = none := by
  simp [patTokM, boundaryBefore, h]

theorem classicTokM_prevCongr {lit l : List Char} {pv pv' : Option Char}
    (h : boundaryBefore pv = boundaryBefore pv') :
    classicTokM lit pv l = classicTokM lit pv' l := by
  unfold classicTokM
  rw [h]

theorem patTokM_prevCongr {l : List Char} {pv pv' : Option Char}
    (h : boundaryBefore pv = boundaryBefore pv') :
    patTokM pv l = patTokM pv' l := by
  unfold patTokM
  rw [h]

theorem classicTokM_headNe {lit : List Char} {g : Char} (hg : lit.head? = some g)
    {prev : Option Char} {c : Char} {cs : List Char} (hne : c ≠ g) :
    classicTokM lit prev (c :: cs) = none := by
  apply classicTokM_none
  rintro ⟨t, ht⟩
  cases lit with
  | nil => cases hg
  | cons a as =>
    simp only [List.head?_cons, Option.some.injEq] at hg
    simp only [List.cons_append, List.cons.injEq] at ht
    exact hne (ht.1.symm.trans hg)

theorem patTokM_headNe {prev : Option Char} {c : Char} {cs : List Char}
    (hne : c ≠ 'g') : patTokM prev (c :: cs) = none := by
  apply patTokM_none
  rintro ⟨t, ht⟩
  simp only [List.cons_append, List.cons.injEq] at ht
  exact hne ht.1.symm

theorem not_pfx_take {l1 l2 : List Char} {n : Nat} (hn : n ≤ l1.length)
    (h : l1.take n ≠ l2.take n) : ¬ l1 <+: l2 := by
  rintro ⟨t, rfl⟩
  rw [List.take_append_of_le_length hn] at h
  exact h rfl

/-! ## Whole-pass lemmas over an embedded token -/

def tokenHit (l : List Char) : Bool :=
  scanHit (classicTokM "ghp_".data) none l || scanHit (classicTokM "gho_".data) none l ||
  scanHit (classicTokM "ghs_".data) none l || scanHit (classicTokM "ghr_".data) none l ||
  scanHit patTokM none l

theorem tokenHit_eq_false {l : List Char} (h : tokenHit l = false) :
    scanHit (classicTokM "ghp_".data) none l = false ∧
    scanHit (classicTokM "gho_".data) none l = false ∧
    scanHit (classicTokM "ghs_".data) none l = false ∧
    scanHit (classicTokM "ghr_".data) none l = false ∧
    scanHit patTokM none l = false := by
  unfold tokenHit at h
  simp only [Bool.or_eq_false_iff] at h
  exact ⟨h.1.1.1.1, h.1.1.1.2, h.1.1.2, h.1.2, h.2⟩

theorem mpass_skip_tok {m : Matcher} {pre tokm post : List Char}
    (hwp : ∀ (c : Char) (l : List Char), isWordChar c = true → m (some c) l = none)
    (hcf : ∀ (prev : Option Char) (p rest : List Char), p ≠ [] →
      (∀ c, p.getLast? = some c → isWordChar c = false) → m prev p = none →
      m prev (p ++ rest) = none)
    (htokw : ∀ c ∈ tokm, isWordChar c = true) (htn : tokm ≠ [])
    (hpre : ∀ c, pre.getLast? = some c → isWordChar c = false)
    (hpreS : ∀ u p, pre = u ++ p → p ≠ [] → m (lastOr none u) p = none)
    (hpostS : ∀ u p, post = u ++ p → p ≠ [] → m (lastOr none u) p = none)
    (hmid0 : ∀ prev, m prev (tokm ++ post) = none) :
    runScan m ⟨pre ++ tokm ++ post⟩ = ⟨pre ++ tokm ++ post⟩ := by
  rw [List.append_assoc]
  apply runScan_id_track
  apply track_none_append
  · intro u p hup hp
    have hlast : ∀ c, p.getLast? = some c → isWordChar c = false := by
      intro c hc
      apply hpre
      rw [hup, List.getLast?_append_of_ne_nil _ hp]
      exact hc
    exact hcf _ p (tokm ++ post) hp hlast (hpreS u p hup hp)
  · apply track_none_append
    · intro u p hup hp
      cases u with
      | nil =>
        have hpt : p = tokm := by simpa using hup.symm
        subst hpt
        exact hmid0 _
      | cons d u' =>
        rw [lastOr_eq_getLast _ (d :: u') (by simp)]
        apply hwp
        apply htokw
        rw [hup]
        exact List.mem_append.mpr (Or.inl (List.getLast_mem _))
    · intro u p hup hp
      cases u with
      | nil =>
        rw [show lastOr (lastOr (lastOr none pre) tokm) [] = lastOr (lastOr none pre) tokm
          from rfl, lastOr_eq_getLast _ tokm htn]
        exact hwp _ _ (htokw _ (List.getLast_mem htn))
      | cons d u' =>
        rw [lastOr_ne (by simp : (d :: u') ≠ []) _ none]
        exact hpostS (d :: u') p hup hp

theorem mpass_skip_marker {m : Matcher} {pre post : List Char}
    (hcf : ∀ (prev : Option Char) (p rest : List Char), p ≠ [] →
      (∀ c, p.getLast? = some c → isWordChar c = false) → m prev p = none →
      m prev (p ++ rest) = none)
    (hcg : ∀ (pv pv' : Option Char) (l : List Char),
      boundaryBefore pv = boundaryBefore pv' → m pv l = m pv' l)
    (hhg : ∀ (prev : Option Char) (c : Char) (cs : List Char), c ≠ 'g' →
      m prev (c :: cs) = none)
    (hpre : ∀ c, pre.getLast? = some c → isWordChar c = false)
    (hpreS : ∀ u p, pre = u ++ p → p ≠ [] → m (lastOr none u) p = none)
    (hpostS : ∀ u p, post = u ++ p → p ≠ [] → m (lastOr none u) p = none) :
    runScan m ⟨pre ++ redactedMarker ++ post⟩ = ⟨pre ++ redactedMarker ++ post⟩ := by
  rw [List.append_assoc]
  apply runScan_id_track
  apply track_none_append
  · intro u p hup hp
    have hlast : ∀ c, p.getLast? = some c → isWordChar c = false := by
      intro c hc
      apply hpre
      rw [hup, List.getLast?_append_of_ne_nil _ hp]
      exact hc
    exact hcf _ p (redactedMarker ++ post) hp hlast (hpreS u p hup hp)
  · apply track_none_append
    · intro u p hup hp
      cases p with
      | nil => exact absurd rfl hp
      | cons c p' =>
        have hcm : c ∈ redactedMarker := by
          rw [hup]
          exact List.mem_append.mpr (Or.inr (List.mem_cons_self c p'))
        have hcg' : ∀ d ∈ redactedMarker, ¬ d = 'g' := by decide
        rw [List.cons_append]
        exact hhg _ c (p' ++ post) (hcg' c hcm)
    · intro u p hup hp
      cases u with
      | nil =>
        rw [show lastOr (lastOr (lastOr none pre) redactedMarker) [] =
          lastOr (lastOr none pre) redactedMarker from rfl,
          lastOr_eq_getLast _ redactedMarker (by decide)]
        rw [hcg (some (redactedMarker.getLast (by decide))) none p (by decide)]
        exact hpostS [] p hup hp
      | cons d u' =>
        rw [lastOr_ne (by simp : (d :: u') ≠ []) _ none]
        exact hpostS (d :: u') p hup hp

theorem mpass_embed {m : Matcher} {pre tok post out : List Char} {npv : Option Char}
    (c0 : Char) (tok' : List Char) (htok : tok = c0 :: tok')
    (hwp : ∀ (c : Char) (l : List Char), isWordChar c = true → m (some c) l = none)
    (hcf : ∀ (prev : Option Char) (p rest : List Char), p ≠ [] →
      (∀ c, p.getLast? = some c → isWordChar c = false) → m prev p = none →
      m prev (p ++ rest) = none)
    (hpre : ∀ c, pre.getLast? = some c → isWordChar c = false)
    (hpreS : ∀ u p, pre = u ++ p → p ≠ [] → m (lastOr none u) p = none)
    (hpostS : ∀ u p, post = u ++ p → p ≠ [] → m (lastOr none u) p = none)
    (hmatch : m (lastOr none pre) (tok ++ post) = some (out, npv, post))
    (hnpv : ∃ d, npv = some d ∧ isWordChar d = true) :
    runScan m ⟨pre ++ tok ++ post⟩ = ⟨pre ++ out ++ post⟩ := by
  unfold runScan
  apply congrArg String.mk
  show scanRepl m (pre ++ tok ++ post).length none (pre ++ tok ++ post) =
    pre ++ out ++ post
  rw [List.append_assoc, List.length_append]
  rw [scanRepl_copy_track m pre (tok ++ post) none (fun u p hup hp => by
    have hlast : ∀ c, p.getLast? = some c → isWordChar c = false := by
      intro c hc
      apply hpre
      rw [hup, List.getLast?_append_of_ne_nil _ hp]
      exact hc
    exact hcf _ p (tok ++ post) hp hlast (hpreS u p hup hp)) ((tok ++ post).length)]
  rw [List.append_assoc]
  congr 1
  rw [htok] at hmatch ⊢
  simp only [List.cons_append] at hmatch ⊢
  rw [show (c0 :: (tok' ++ post) : List Char).length = (tok' ++ post).length + 1 from rfl,
    scanRepl_match m ((tok' ++ post).length) _ npv c0 (tok' ++ post) out post hmatch]
  congr 1
  apply scanRepl_id_track m post npv
  intro u p hup hp
  cases u with
  | nil =>
    obtain ⟨d, hd, hdw⟩ := hnpv
    rw [show lastOr npv [] = npv from rfl, hd]
    exact hwp _ _ hdw
  | cons d u' =>
    rw [lastOr_ne (by simp : (d :: u') ≠ []) _ none]
    exact hpostS (d :: u') p hup hp

/-! ## The five passes on an embedded token -/

theorem tok_word (lit body : List Char) (hlitw : ∀ c ∈ lit, isWordChar c = true)
    (hbw : ∀ c ∈ body, isWordChar c = true) : ∀ c ∈ lit ++ body, isWordChar c = true :=
  fun c hc => (List.mem_append.mp hc).elim (hlitw c) (hbw c)

theorem classic_npv (lit body post : List Char) (hlen : body.length = 36)
    (halnum : ∀ c ∈ body, isAsciiAlphanum c = true) :
    ∃ d, ((lit ++ (body ++ post)).take (lit.length + 36)).getLast? = some d ∧
      isWordChar d = true := by
  have hb : body ≠ [] := by
    intro h
    rw [h] at hlen
    cases hlen
  have htake : (lit ++ (body ++ post)).take (lit.length + 36) = lit ++ body := by
    rw [← hlen, ← List.length_append, ← List.append_assoc]
    exact List.take_left (lit ++ body) post
  refine ⟨body.getLast hb, ?_, word_of_alnum (halnum _ (List.getLast_mem hb))⟩
  rw [htake, List.getLast?_append_of_ne_nil _ hb, List.getLast?_eq_getLast body hb]

theorem classic_embed_full (lit : List Char) {body pre post : List Char}
    (c0 : Char) (lit' : List Char) (hlitc : lit = c0 :: lit')
    (hlitw : ∀ c ∈ lit, isWordChar c = true)
    (hlen : body.length = 36) (halnum : ∀ c ∈ body, isAsciiAlphanum c = true)
    (hpre : ∀ c, pre.getLast? = some c → isWordChar c = false)
    (hpost : ∀ c, post.head? = some c → isWordChar c = false)
    (hpreS : ∀ u p, pre = u ++ p → p ≠ [] → classicTokM lit (lastOr none u) p = none)
    (hpostS : ∀ u p, post = u ++ p → p ≠ [] → classicTokM lit (lastOr none u) p = none) :
    runScan (classicTokM lit) ⟨pre ++ (lit ++ body) ++ post⟩ =
      ⟨pre ++ redactedMarker ++ post⟩ := by
  have hmatch : classicTokM lit (lastOr none pre) ((lit ++ body) ++ post) =
      some (redactedMarker,
        ((lit ++ (body ++ post)).take (lit.length + 36)).getLast?, post) := by
    rw [List.append_assoc]
    exact classicTokM_match lit body post _ (boundaryBefore_of_lastOr hpre) hlen halnum
      hpost
  exact mpass_embed c0 (lit' ++ body) (by rw [hlitc]; simp)
    (fun _ _ hc => classicTokM_wordPrev hc)
    (fun _ _ _ hp hl hn => classicTokM_confine hlitw hp hl hn)
    hpre hpreS hpostS hmatch (classic_npv lit body post hlen halnum)

theorem pat_embed_full {body pre post : List Char}
    (hl1 : 11 ≤ body.length) (hl2 : body.length ≤ 221)
    (hword : ∀ c ∈ body, isWordChar c = true)
    (hpre : ∀ c, pre.getLast? = some c → isWordChar c = false)
    (hpost : ∀ c, post.head? = some c → isWordChar c = false)
    (hpreS : ∀ u p, pre = u ++ p → p ≠ [] → patTokM (lastOr none u) p = none)
    (hpostS : ∀ u p, post = u ++ p → p ≠ [] → patTokM (lastOr none u) p = none) :
    runScan patTokM ⟨pre ++ ("github_pat_".data ++ body) ++ post⟩ =
      ⟨pre ++ redactedMarker ++ post⟩ := by
  have hb : body ≠ [] := by
    intro h
    rw [h] at hl1
    cases hl1
  have hmatch : patTokM (lastOr none pre) (("github_pat_".data ++ body) ++ post) =
      some (redactedMarker, body.getLast?, post) := by
    rw [List.append_assoc]
    exact patTokM_match body post _ (boundaryBefore_of_lastOr hpre) hl1 hl2 hword hpost
  exact mpass_embed 'g' ("ithub_pat_".data ++ body) rfl
    (fun _ _ hc => patTokM_wordPrev hc)
    (fun _ _ _ hp hl hn => patTokM_confine hp hl hn)
    hpre hpreS hpostS hmatch
    ⟨body.getLast hb, by rw [List.getLast?_eq_getLast body hb],
      hword _ (List.getLast_mem hb)⟩

theorem classic_skip_tok (lit : List Char) {tokm pre post : List Char}
    (hlitw : ∀ c ∈ lit, isWordChar c = true)
    (htokw : ∀ c ∈ tokm, isWordChar c = true) (htn : tokm ≠ [])
    (hnp : ¬ lit <+: tokm ++ post)
    (hpre : ∀ c, pre.getLast? = some c → isWordChar c = false)
    (hpreS : ∀ u p, pre = u ++ p → p ≠ [] → classicTokM lit (lastOr none u) p = none)
    (hpostS : ∀ u p, post = u ++ p → p ≠ [] → classicTokM lit (lastOr none u) p = none) :
    runScan (classicTokM lit) ⟨pre ++ tokm ++ post⟩ = ⟨pre ++ tokm ++ post⟩ :=
  mpass_skip_tok (fun _ _ hc => classicTokM_wordPrev hc)
    (fun _ _ _ hp hl hn => classicTokM_confine hlitw hp hl hn)
    htokw htn hpre hpreS hpostS (fun _ => classicTokM_none hnp)

theorem classic_skip_marker (lit : List Char) {pre post : List Char}
    (hlitw : ∀ c ∈ lit, isWordChar c = true) (hg : lit.head? = some 'g')
    (hpre : ∀ c, pre.getLast? = some c → isWordChar c = false)
    (hpreS : ∀ u p, pre = u ++ p → p ≠ [] → classicTokM lit (lastOr none u) p = none)
    (hpostS : ∀ u p, post = u ++ p → p ≠ [] → classicTokM lit (lastOr none u) p = none) :
    runScan (classicTokM lit) ⟨pre ++ redactedMarker ++ post⟩ =
      ⟨pre ++ redactedMarker ++ post⟩ :=
  mpass_skip_marker (fun _ _ _ hp hl hn => classicTokM_confine hlitw hp hl hn)
    (fun _ _ _ h => classicTokM_prevCongr h)
    (fun _ _ _ hne => classicTokM_headNe hg hne)
    hpre hpreS hpostS

theorem pat_skip_marker {pre post : List Char}
    (hpre : ∀ c, pre.getLast? = some c → isWordChar c = false)
    (hpreS : ∀ u p, pre = u ++ p → p ≠ [] → patTokM (lastOr none u) p = none)
    (hpostS : ∀ u p, post = u ++ p → p ≠ [] → patTokM (lastOr none u) p = none) :
    runScan patTokM ⟨pre ++ redactedMarker ++ post⟩ =
      ⟨pre ++ redactedMarker ++ post⟩ :=
  mpass_skip_marker (fun _ _ _ hp hl hn => patTokM_confine hp hl hn)
    (fun _ _ _ h => patTokM_prevCongr h)
    (fun _ _ _ hne => patTokM_headNe hne)
    hpre hpreS hpostS

theorem not_pfx_lit_n (n : Nat) {lit1 lit2 X : List Char} (h1 : n ≤ lit1.length)
    (h2 : n ≤ lit2.length) (hne : lit1.take n ≠ lit2.take n) : ¬ lit1 <+: lit2 ++ X := by
  apply not_pfx_take h1
  rw [List.take_append_of_le_length h2]
  exact hne

/-- A classic-token shape: the given prefix followed by exactly 36
alphanumerics. -/
def ClassicShape (lit tok : List Char) : Prop :=
  ∃ body, tok = lit ++ body ∧ body.length = 36 ∧ ∀ c ∈ body, isAsciiAlphanum c = true

/-- The fine-grained-token shape: `github_pat_` followed by 11 to 221
word characters — the full class of the source regex.  The body may
freely contain `ghp_`/`gho_`/`ghs_`/`ghr_`: inside the token's word
run the classic passes' leading `\b` cannot fire, so no extra
restriction is needed. -/
def PatShape (tok : List Char) : Prop :=
  ∃ body, tok = "github_pat_".data ++ body ∧ 11 ≤ body.length ∧ body.length ≤ 221 ∧
    ∀ c ∈ body, isWordChar c = true

theorem redactGitHubTokens_eq (s : String) :
    redactGitHubTokens s =
      runScan patTokM (runScan (classicTokM "ghr_".data)
        (runScan (classicTokM "ghs_".data) (runScan (classicTokM "gho_".data)
          (runScan (classicTokM "ghp_".data) s)))) := rfl

/-- C7: a token of any of the five recognized shapes, embedded in
surrounding text at word boundaries (a junction character, when
present, is a non-word character) whose surroundings contain no
redactable token of their own (no pass's matcher fires at any position
of `pre` or of `post`), is replaced by the literal
`[REDACTED_GITHUB_TOKEN]` marker while the surrounding text passes
through unchanged; and a string in which no pass's matcher fires
anywhere is left entirely unchanged. -/
theorem redact_token_embedding (pre tok post : List Char)
    (hshape :
      ClassicShape "ghp_".data tok ∨ ClassicShape "gho_".data tok ∨
      ClassicShape "ghs_".data tok ∨ ClassicShape "ghr_".data tok ∨ PatShape tok)
    (hpre : ∀ c, pre.getLast? = some c → isWordChar c = false)
    (hpost : ∀ c, post.head? = some c → isWordChar c = false)
    (hpreT : tokenHit pre = false) (hpostT : tokenHit post = false) :
    redactGitHubTokens ⟨pre ++ tok ++ post⟩ = ⟨pre ++ redactedMarker ++ post⟩ ∧
    ∀ s : List Char, tokenHit s = false → redactGitHubTokens ⟨s⟩ = ⟨s⟩ := by
  have hid : ∀ s : List Char, tokenHit s = false → redactGitHubTokens ⟨s⟩ = ⟨s⟩ := by
    intro s hs
    obtain ⟨h1, h2, h3, h4, h5⟩ := tokenHit_eq_false hs
    rw [redactGitHubTokens_eq,
      runScan_id_track _ _ (scanHit_none _ _ _ h1),
      runScan_id_track _ _ (scanHit_none _ _ _ h2),
      runScan_id_track _ _ (scanHit_none _ _ _ h3),
      runScan_id_track _ _ (scanHit_none _ _ _ h4),
      runScan_id_track _ _ (scanHit_none _ _ _ h5)]
  refine ⟨?_, hid⟩
  obtain ⟨hA1, hA2, hA3, hA4, hA5⟩ := tokenHit_eq_false hpreT
  obtain ⟨hB1, hB2, hB3, hB4, hB5⟩ := tokenHit_eq_false hpostT
  have hP1 := scanHit_none _ _ _ hA1
  have hP2 := scanHit_none _ _ _ hA2
  have hP3 := scanHit_none _ _ _ hA3
  have hP4 := scanHit_none _ _ _ hA4
  have hP5 := scanHit_none _ _ _ hA5
  have hQ1 := scanHit_none _ _ _ hB1
  have hQ2 := scanHit_none _ _ _ hB2
  have hQ3 := scanHit_none _ _ _ hB3
  have hQ4 := scanHit_none _ _ _ hB4
  have hQ5 := scanHit_none _ _ _ hB5
  rcases hshape with ⟨body, rfl, hlen, halnum⟩ | ⟨body, rfl, hlen, halnum⟩ |
    ⟨body, rfl, hlen, halnum⟩ | ⟨body, rfl, hlen, halnum⟩ |
    ⟨body, rfl, hl1, hl2, hword⟩
  ·
    rw [redactGitHubTokens_eq,
      classic_embed_full "ghp_".data 'g' "hp_".data rfl (by decide) hlen halnum
        hpre hpost hP1 hQ1,
      classic_skip_marker "gho_".data (by decide) (by decide) hpre hP2 hQ2,
      classic_skip_marker "ghs_".data (by decide) (by decide) hpre hP3 hQ3,
      classic_skip_marker "ghr_".data (by decide) (by decide) hpre hP4 hQ4,
      pat_skip_marker hpre hP5 hQ5]
  ·
    have htokw : ∀ c ∈ "gho_".data ++ body, isWordChar c = true :=
      tok_word _ body (by decide) (fun c h => word_of_alnum (halnum c h))
    rw [redactGitHubTokens_eq,
      classic_skip_tok "ghp_".data (by decide) htokw (by simp)
        (by rw [List.append_assoc]
            exact not_pfx_lit_n 3 (by decide) (by decide) (by decide))
        hpre hP1 hQ1,
      classic_embed_full "gho_".data 'g' "ho_".data rfl (by decide) hlen halnum
        hpre hpost hP2 hQ2,
      classic_skip_marker "ghs_".data (by decide) (by decide) hpre hP3 hQ3,
      classic_skip_marker "ghr_".data (by decide) (by decide) hpre hP4 hQ4,
      pat_skip_marker hpre hP5 hQ5]
  ·
    have htokw : ∀ c ∈ "ghs_".data ++ body, isWordChar c = true :=
      tok_word _ body (by decide) (fun c h => word_of_alnum (halnum c h))
    rw [redactGitHubTokens_eq,
      classic_skip_tok "ghp_".data (by decide) htokw (by simp)
        (by rw [List.append_assoc]
            exact not_pfx_lit_n 3 (by decide) (by decide) (by decide))
        hpre hP1 hQ1,
      classic_skip_tok "gho_".data (by decide) htokw (by simp)
        (by rw [List.append_assoc]
            exact not_pfx_lit_n 3 (by decide) (by decide) (by decide))
        hpre hP2 hQ2,
      classic_embed_full "ghs_".data 'g' "hs_".data rfl (by decide) hlen halnum
        hpre hpost hP3 hQ3,
      classic_skip_marker "ghr_".data (by decide) (by decide) hpre hP4 hQ4,
      pat_skip_marker hpre hP5 hQ5]
  ·
    have htokw : ∀ c ∈ "ghr_".data ++ body, isWordChar c = true :=
      tok_word _ body (by decide) (fun c h => word_of_alnum (halnum c h))
    rw [redactGitHubTokens_eq,
      classic_skip_tok "ghp_".data (by decide) htokw (by simp)
        (by rw [List.append_assoc]
            exact not_pfx_lit_n 3 (by decide) (by decide) (by decide))
        hpre hP1 hQ1,
      classic_skip_tok "gho_".data (by decide) htokw (by simp)
        (by rw [List.append_assoc]
            exact not_pfx_lit_n 3 (by decide) (by decide) (by decide))
        hpre hP2 hQ2,
      classic_skip_tok "ghs_".data (by decide) htokw (by simp)
        (by rw [List.append_assoc]
            exact not_pfx_lit_n 3 (by decide) (by decide) (by decide))
        hpre hP3 hQ3,
      classic_embed_full "ghr_".data 'g' "hr_".data rfl (by decide) hlen halnum
        hpre hpost hP4 hQ4,
      pat_skip_marker hpre hP5 hQ5]
  ·
    have htokw : ∀ c ∈ "github_pat_".data ++ body, isWordChar c = true :=
      tok_word _ body (by decide) hword
    rw [redactGitHubTokens_eq,
      classic_skip_tok "ghp_".data (by decide) htokw (by simp)
        (by rw [List.append_assoc]
            exact not_pfx_lit_n 3 (by decide) (by decide) (by decide))
        hpre hP1 hQ1,
      classic_skip_tok "gho_".data (by decide) htokw (by simp)
        (by rw [List.append_assoc]
            exact not_pfx_lit_n 3 (by decide) (by decide) (by decide))
        hpre hP2 hQ2,
      classic_skip_tok "ghs_".data (by decide) htokw (by simp)
        (by rw [List.append_assoc]
            exact not_pfx_lit_n 3 (by decide) (by decide) (by decide))
        hpre hP3 hQ3,
      classic_skip_tok "ghr_".data (by decide) htokw (by simp)
        (by rw [List.append_assoc]
            exact not_pfx_lit_n 3 (by decide) (by decide) (by decide))
        hpre hP4 hQ4,
      pat_embed_full hl1 hl2 hword hpre hpost hP5 hQ5]

theorem redact_token_embedding_witness :
    tokenHit "user_id: ".data = false ∧ tokenHit " end.".data = false ∧
    redactGitHubTokens
        ⟨"user_id: ".data ++ ("github_pat_".data ++ "22AAghp_AAA".data) ++ " end.".data⟩ =
      ⟨"user_id: ".data ++ redactedMarker ++ " end.".data⟩ :=
  ⟨by decide, by decide,
    (redact_token_embedding "user_id: ".data
      ("github_pat_".data ++ "22AAghp_AAA".data) " end.".data
      (Or.inr (Or.inr (Or.inr (Or.inr ⟨"22AAghp_AAA".data, rfl, by decide, by decide,
        by decide⟩))))
      (fun c h => by
        have h' : some ' ' = some c := h
        cases h'
        decide)
      (fun c h => by
        have h' : some ' ' = some c := h
        cases h'
        decide)
      (by decide) (by decide)).1⟩

/-! ## Sanitizer idempotence (claim C3)

`sanitizeContent` is *not* idempotent (decoding character references can
expose new references; see the counterexample below).  We characterise a
class of inputs on which every stage provably finds nothing to rewrite:
strings of ASCII letters, digits, spaces, periods and commas. -/

/-- ASCII letters, digits, space, period, comma. -/
def isSafeChar (c : Char) : Bool :=
  (97 ≤ c.toNat && c.toNat ≤ 122) || (65 ≤ c.toNat && c.toNat ≤ 90) ||
  (48 ≤ c.toNat && c.toNat ≤ 57) || c.toNat = 32 || c.toNat = 46 || c.toNat = 44

theorem safe_toNat {c : Char} (h : isSafeChar c = true) :
    (97 ≤ c.toNat ∧ c.toNat ≤ 122) ∨ (65 ≤ c.toNat ∧ c.toNat ≤ 90) ∨
    (48 ≤ c.toNat ∧ c.toNat ≤ 57) ∨ c.toNat = 32 ∨ c.toNat = 46 ∨ c.toNat = 44 := by
  simpa [isSafeChar, Bool.or_eq_true, Bool.and_eq_true, decide_eq_true_eq, or_assoc] using h

theorem safeChar_ne {c : Char} (h : isSafeChar c = true) (k : Char)
    (hk : isSafeChar k = false) : c ≠ k := by
  intro he
  subst he
  rw [hk] at h
  cases h

theorem uleA {c : Char} {n : UInt32} (h : c.val ≤ n) : c.toNat ≤ n.toNat := h

theorem uleB {c : Char} {n : UInt32} (h : n ≤ c.val) : n.toNat ≤ c.toNat := h

theorem ueq {c : Char} {n : UInt32} (h : c.val = n) : c.toNat = n.toNat :=
  congrArg UInt32.toNat h

theorem safe_not_invisible {c : Char} (h : isSafeChar c = true) :
    isZeroWidthChar c = false ∧ isControlRangeChar c = false ∧
    isSoftHyphenChar c = false ∧ isBidiChar c = false := by
  have hs := safe_toNat h
  refine ⟨?_, ?_, ?_, ?_⟩
  · cases hz : isZeroWidthChar c
    · rfl
    · exfalso
      simp only [isZeroWidthChar, Bool.or_eq_true, decide_eq_true_eq] at hz
      omega
  · cases hz : isControlRangeChar c
    · rfl
    · exfalso
      simp only [isControlRangeChar, Bool.or_eq_true, Bool.and_eq_true,
        decide_eq_true_eq] at hz
      omega
  · cases hz : isSoftHyphenChar c
    · rfl
    · exfalso
      simp only [isSoftHyphenChar, decide_eq_true_eq] at hz
      omega
  · cases hz : isBidiChar c
    · rfl
    · exfalso
      simp only [isBidiChar, Bool.or_eq_true, Bool.and_eq_true, decide_eq_true_eq] at hz
      omega

theorem toNat_ofNat_letter {n : Nat} (h1 : 97 ≤ n) (h2 : n ≤ 122) :
    (Char.ofNat n).toNat = n := by
  have hv : n.isValidChar := Or.inl (by omega)
  unfold Char.ofNat
  rw [dif_pos hv]
  rfl

theorem safe_toLower_toNat {c : Char} (h : isSafeChar c = true) :
    (97 ≤ (jsToLowerChar c).toNat ∧ (jsToLowerChar c).toNat ≤ 122) ∨
    (48 ≤ (jsToLowerChar c).toNat ∧ (jsToLowerChar c).toNat ≤ 57) ∨
    (jsToLowerChar c).toNat = 32 ∨ (jsToLowerChar c).toNat = 46 ∨
    (jsToLowerChar c).toNat = 44 := by
  have hs := safe_toNat h
  unfold jsToLowerChar
  by_cases hc : ('A' ≤ c && c ≤ 'Z') = true
  · rw [if_pos hc]
    rw [Bool.and_eq_true, decide_eq_true_eq, decide_eq_true_eq] at hc
    have h1 : 65 ≤ c.toNat := hc.1
    have h2 : c.toNat ≤ 90 := hc.2
    rw [toNat_ofNat_letter (by omega) (by omega)]
    omega
  · rw [if_neg hc]
    rcases hs with h1 | h1 | h1 | h1 | h1 | h1
    · omega
    · exfalso
      apply hc
      rw [Bool.and_eq_true, decide_eq_true_eq, decide_eq_true_eq]
      exact ⟨h1.1, h1.2⟩
    · omega
    · omega
    · omega
    · omega

theorem htmlCommentM_safe_none (prev : Option Char) (c : Char) (cs : List Char)
    (h : isSafeChar c = true) : htmlCommentM prev (c :: cs) = none := by
  have hne : c ≠ '<' := safeChar_ne h '<' (by decide)
  unfold htmlCommentM
  split <;> simp_all

theorem imageAltM_safe_none (prev : Option Char) (c : Char) (cs : List Char)
    (h : isSafeChar c = true) : imageAltM prev (c :: cs) = none := by
  have hne : c ≠ '!' := safeChar_ne h '!' (by decide)
  unfold imageAltM
  split <;> simp_all

theorem linkTitleM_safe_none (q : Char) (prev : Option Char) (c : Char) (cs : List Char)
    (h : isSafeChar c = true) : linkTitleM q prev (c :: cs) = none := by
  have hne : c ≠ '[' := safeChar_ne h '[' (by decide)
  unfold linkTitleM
  split <;> simp_all

theorem decEntityM_safe_none (prev : Option Char) (c : Char) (cs : List Char)
    (h : isSafeChar c = true) : decEntityM prev (c :: cs) = none := by
  have hne : c ≠ '&' := safeChar_ne h '&' (by decide)
  unfold decEntityM
  split <;> simp_all

theorem hexEntityM_safe_none (prev : Option Char) (c : Char) (cs : List Char)
    (h : isSafeChar c = true) : hexEntityM prev (c :: cs) = none := by
  have hne : c ≠ '&' := safeChar_ne h '&' (by decide)
  unfold hexEntityM
  split <;> simp_all

theorem dropLitCI_suffix : ∀ {lit l r : List Char}, dropLitCI lit l = some r → r <:+ l := by
  intro lit
  induction lit with
  | nil =>
    intro l r h
    simp only [dropLitCI, Option.some.injEq] at h
    exact h ▸ List.suffix_rfl
  | cons a as ih =>
    intro l r h
    cases l with
    | nil => cases h
    | cons c cs =>
      simp only [dropLitCI] at h
      by_cases heq : jsToLowerChar c = a
      · rw [if_pos heq] at h
        exact (ih h).trans (List.suffix_cons c cs)
      · rw [if_neg heq] at h
        cases h

theorem dropLitCI_bad {k : Char}
    (hnk : ∀ c, isSafeChar c = true → jsToLowerChar c ≠ k) :
    ∀ {lit l : List Char}, k ∈ lit → (∀ x ∈ l, isSafeChar x = true) →
      dropLitCI lit l = none := by
  intro lit
  induction lit with
  | nil =>
    intro l hk
    exact absurd hk (List.not_mem_nil k)
  | cons a as ih =>
    intro l hk h
    cases l with
    | nil => rfl
    | cons c cs =>
      simp only [dropLitCI]
      by_cases heq : jsToLowerChar c = a
      · rw [if_pos heq]
        rcases List.mem_cons.mp hk with rfl | hk'
        · exact absurd heq (hnk c (h c (List.mem_cons_self c cs)))
        · exact ih hk' fun x hx => h x (List.mem_cons_of_mem c hx)
      · rw [if_neg heq]

theorem attrEqQuoted_safe_none (r2 : List Char) (h : ∀ x ∈ r2, isSafeChar x = true) :
    attrEqQuoted r2 = none := by
  have hsfx : r2.dropWhile jsWhitespace <:+ r2 := List.dropWhile_suffix _
  unfold attrEqQuoted
  cases hdw : r2.dropWhile jsWhitespace with
  | nil => rfl
  | cons d r4 =>
    have hd : d ∈ r2 := hsfx.sublist.subset (by rw [hdw]; exact List.mem_cons_self d r4)
    have hne : d ≠ '=' := safeChar_ne (h d hd) '=' (by decide)
    split <;> simp_all

theorem attrEqUnquoted_safe_none (r2 : List Char) (h : ∀ x ∈ r2, isSafeChar x = true) :
    attrEqUnquoted r2 = none := by
  have hsfx : r2.dropWhile jsWhitespace <:+ r2 := List.dropWhile_suffix _
  unfold attrEqUnquoted
  cases hdw : r2.dropWhile jsWhitespace with
  | nil => rfl
  | cons d r4 =>
    have hd : d ∈ r2 := hsfx.sublist.subset (by rw [hdw]; exact List.mem_cons_self d r4)
    have hne : d ≠ '=' := safeChar_ne (h d hd) '=' (by decide)
    split <;> simp_all

theorem attrM_safe_none (name : List Char)
    (vt : List Char → Option (Option Char × List Char))
    (hvt : ∀ r2, (∀ x ∈ r2, isSafeChar x = true) → vt r2 = none)
    (prev : Option Char) (c : Char) (cs : List Char)
    (h : ∀ x ∈ c :: cs, isSafeChar x = true) :
    attrM name vt prev (c :: cs) = none := by
  show (if jsWhitespace c then
      match dropLitCI name cs with
      | some r2 =>
        match vt r2 with
        | some (np, rest) => some ([], np, rest)
        | none => none
      | none => none
    else none) = none
  cases hw : jsWhitespace c
  · rfl
  · simp only [if_true]
    cases hdl : dropLitCI name cs with
    | none => rfl
    | some r2 =>
      have hr2 : r2 <:+ cs := dropLitCI_suffix hdl
      show (match vt r2 with
            | some (np, rest) => some ([], np, rest)
            | none => none) = none
      rw [hvt r2 fun x hx => h x (List.mem_cons_of_mem c (hr2.sublist.subset hx))]

theorem safe_toLower_ne_dash (c : Char) (h : isSafeChar c = true) :
    jsToLowerChar c ≠ '-' := by
  intro he
  have hlow := safe_toLower_toNat h
  rw [he] at hlow
  have h45 : ('-' : Char).toNat = 45 := rfl
  rw [h45] at hlow
  omega

theorem dataAttrM_safe_none (vt : List Char → Option (Option Char × List Char))
    (prev : Option Char) (c : Char) (cs : List Char)
    (h : ∀ x ∈ c :: cs, isSafeChar x = true) :
    dataAttrM vt prev (c :: cs) = none := by
  show (if jsWhitespace c then
      match dropLitCI ['d', 'a', 't', 'a', '-'] cs with
      | some r2 =>
        let nm := r2.takeWhile (fun d => isAsciiAlphanum d || d = '-')
        if nm.isEmpty then none
        else
          match vt (r2.drop nm.length) with
          | some (np, rest) => some ([], np, rest)
          | none => none
      | none => none
    else none) = none
  cases hw : jsWhitespace c
  · rfl
  · simp only [if_true]
    rw [dropLitCI_bad safe_toLower_ne_dash (by decide)
      fun x hx => h x (List.mem_cons_of_mem c hx)]

theorem stripHtmlComments_safe_id (l : List Char) (h : ∀ c ∈ l, isSafeChar c = true) :
    stripHtmlComments ⟨l⟩ = ⟨l⟩ :=
  runScan_eq_of_none _ _ fun prev c cs hs =>
    htmlCommentM_safe_none prev c cs (h c (hs.sublist.subset (List.mem_cons_self c cs)))

theorem stripInvisibleCharacters_safe_id (l : List Char)
    (h : ∀ c ∈ l, isSafeChar c = true) :
    stripInvisibleCharacters ⟨l⟩ = ⟨l⟩ := by
  have h1 : l.filter (fun c => !isZeroWidthChar c) = l :=
    List.filter_eq_self.mpr fun a ha => by rw [(safe_not_invisible (h a ha)).1]; rfl
  have h2 : l.filter (fun c => !isControlRangeChar c) = l :=
    List.filter_eq_self.mpr fun a ha => by rw [(safe_not_invisible (h a ha)).2.1]; rfl
  have h3 : l.filter (fun c => !isSoftHyphenChar c) = l :=
    List.filter_eq_self.mpr fun a ha => by rw [(safe_not_invisible (h a ha)).2.2.1]; rfl
  have h4 : l.filter (fun c => !isBidiChar c) = l :=
    List.filter_eq_self.mpr fun a ha => by rw [(safe_not_invisible (h a ha)).2.2.2]; rfl
  show String.mk
    ((((l.filter (fun c => !isZeroWidthChar c)).filter
      (fun c => !isControlRangeChar c)).filter
        (fun c => !isSoftHyphenChar c)).filter (fun c => !isBidiChar c)) = ⟨l⟩
  rw [h1, h2, h3, h4]

theorem stripMarkdownImageAltText_safe_id (l : List Char)
    (h : ∀ c ∈ l, isSafeChar c = true) :
    stripMarkdownImageAltText ⟨l⟩ = ⟨l⟩ :=
  runScan_eq_of_none _ _ fun prev c cs hs =>
    imageAltM_safe_none prev c cs (h c (hs.sublist.subset (List.mem_cons_self c cs)))

theorem stripMarkdownLinkTitles_safe_id (l : List Char)
    (h : ∀ c ∈ l, isSafeChar c = true) :
    stripMarkdownLinkTitles ⟨l⟩ = ⟨l⟩ := by
  have hq : ∀ q, runScan (linkTitleM q) ⟨l⟩ = ⟨l⟩ := fun q =>
    runScan_eq_of_none _ _ fun prev c cs hs =>
      linkTitleM_safe_none q prev c cs (h c (hs.sublist.subset (List.mem_cons_self c cs)))
  unfold stripMarkdownLinkTitles
  rw [hq '"', hq '\'']

theorem stripHiddenAttributes_eq (s : String) :
    stripHiddenAttributes s =
      runScan (attrM ['p', 'l', 'a', 'c', 'e', 'h', 'o', 'l', 'd', 'e', 'r'] attrEqUnquoted)
        (runScan (attrM ['p', 'l', 'a', 'c', 'e', 'h', 'o', 'l', 'd', 'e', 'r'] attrEqQuoted)
          (runScan (dataAttrM attrEqUnquoted)
            (runScan (dataAttrM attrEqQuoted)
              (runScan (attrM ['a', 'r', 'i', 'a', '-', 'l', 'a', 'b', 'e', 'l'] attrEqUnquoted)
                (runScan (attrM ['a', 'r', 'i', 'a', '-', 'l', 'a', 'b', 'e', 'l'] attrEqQuoted)
                  (runScan (attrM ['t', 'i', 't', 'l', 'e'] attrEqUnquoted)
                    (runScan (attrM ['t', 'i', 't', 'l', 'e'] attrEqQuoted)
                      (runScan (attrM ['a', 'l', 't'] attrEqUnquoted)
                        (runScan (attrM ['a', 'l', 't'] attrEqQuoted) s))))))))) := rfl

theorem stripHiddenAttributes_safe_id (l : List Char)
    (h : ∀ c ∈ l, isSafeChar c = true) :
    stripHiddenAttributes ⟨l⟩ = ⟨l⟩ := by
  have hA : ∀ (name : List Char) (vt : List Char → Option (Option Char × List Char)),
      (∀ r2, (∀ x ∈ r2, isSafeChar x = true) → vt r2 = none) →
      runScan (attrM name vt) ⟨l⟩ = ⟨l⟩ := fun name vt hvt =>
    runScan_eq_of_none _ _ fun prev c cs hs =>
      attrM_safe_none name vt hvt prev c cs fun x hx => h x (hs.sublist.subset hx)
  have hD : ∀ (vt : List Char → Option (Option Char × List Char)),
      runScan (dataAttrM vt) ⟨l⟩ = ⟨l⟩ := fun vt =>
    runScan_eq_of_none _ _ fun prev c cs hs =>
      dataAttrM_safe_none vt prev c cs fun x hx => h x (hs.sublist.subset hx)
  rw [stripHiddenAttributes_eq,
    hA _ _ attrEqQuoted_safe_none, hA _ _ attrEqUnquoted_safe_none,
    hA _ _ attrEqQuoted_safe_none, hA _ _ attrEqUnquoted_safe_none,
    hA _ _ attrEqQuoted_safe_none, hA _ _ attrEqUnquoted_safe_none,
    hD _, hD _,
    hA _ _ attrEqQuoted_safe_none, hA _ _ attrEqUnquoted_safe_none]

theorem normalizeHtmlEntities_safe_id (l : List Char)
    (h : ∀ c ∈ l, isSafeChar c = true) :
    normalizeHtmlEntities ⟨l⟩ = ⟨l⟩ := by
  unfold normalizeHtmlEntities
  rw [runScan_eq_of_none _ _ fun prev c cs hs =>
    decEntityM_safe_none prev c cs (h c (hs.sublist.subset (List.mem_cons_self c cs)))]
  exact runScan_eq_of_none _ _ fun prev c cs hs =>
    hexEntityM_safe_none prev c cs (h c (hs.sublist.subset (List.mem_cons_self c cs)))

/-- A string without `_` contains no redactable token, so redaction
leaves it unchanged. -/
theorem redactGitHubTokens_id_noU (l : List Char) (hU : '_' ∉ l) :
    redactGitHubTokens ⟨l⟩ = ⟨l⟩ := by
  have hc : ∀ lit : List Char, '_' ∈ lit → runScan (classicTokM lit) ⟨l⟩ = ⟨l⟩ :=
    fun lit hu => runScan_eq_of_none _ _ fun prev c cs hs =>
      classicTokM_none (not_pfx_of_no_underscore hu fun hm => hU (hs.sublist.subset hm))
  rw [redactGitHubTokens_eq, hc "ghp_".data (by decide), hc "gho_".data (by decide),
    hc "ghs_".data (by decide), hc "ghr_".data (by decide)]
  exact runScan_eq_of_none _ _ fun prev c cs hs =>
    patTokM_none (not_pfx_of_no_underscore (by decide) fun hm => hU (hs.sublist.subset hm))

/-- C3 counterexample: `sanitizeContent` is not idempotent.  Decoding
`&#38;` (the ampersand) in `&#38;#60;` produces `&#60;`, which a second
pass decodes to `<`. -/
theorem sanitizeContent_not_idempotent :
    sanitizeContent (sanitizeContent "&#38;#60;") ≠ sanitizeContent "&#38;#60;" := by
  decide

/-- C3 (amended): `sanitizeContent` is not idempotent in general, but on
strings consisting only of ASCII letters, digits, spaces, periods and
commas every stage finds nothing to rewrite: the sanitizer is the
identity there, hence idempotent. -/
theorem sanitizeContent_safe_idempotent (s : String)
    (h : ∀ c ∈ s.data, isSafeChar c = true) :
    sanitizeContent s = s ∧
    sanitizeContent (sanitizeContent s) = sanitizeContent s := by
  obtain ⟨l⟩ := s
  have hid : sanitizeContent ⟨l⟩ = ⟨l⟩ := by
    unfold sanitizeContent
    rw [stripHtmlComments_safe_id l h, stripInvisibleCharacters_safe_id l h,
      stripMarkdownImageAltText_safe_id l h, stripMarkdownLinkTitles_safe_id l h,
      stripHiddenAttributes_safe_id l h, normalizeHtmlEntities_safe_id l h]
    exact redactGitHubTokens_id_noU l fun hm => absurd (h '_' hm) (by decide)
  exact ⟨hid, by rw [hid, hid]⟩

theorem sanitizeContent_safe_idempotent_witness :
    sanitizeContent "Hello world, 123." = "Hello world, 123." ∧
    sanitizeContent (sanitizeContent "Hello world, 123.") =
      sanitizeContent "Hello world, 123." :=
  sanitizeContent_safe_idempotent "Hello world, 123." (by decide)
